import Mathlib

/-!
Verification development for the `zi` repository.

Shallow embedding of the two core subsystems:
* the divination engine (`src/utils/divination.ts`): seeded PRNG, image
  hashing, the three line-generation methods, King Wen hexagram lookup and
  the interpretation rule table;
* the GIF decoder (`src/utils/gifParser.ts`): block walk, LZW decompression,
  deinterlacing and the `isAnimatedGif` fast path.

JavaScript numbers are modelled as `Nat`/`Int` (all integer-valued
quantities in the source stay exact below 2^53) with explicit `% 2^32`
where the source relies on 32-bit coercion, and as `ℚ` where the source
uses fractional arithmetic.  Loops are modelled as structural recursion,
well-founded recursion, or explicit-fuel runs; fallible code returns
`Option`.
-/

/- ═══════════════════  Divination: line states  ═══════════════════ -/

inductive LineType where
  | yang
  | yin
deriving DecidableEq, Repr

/-- Embeds `LineState` from `src/types/divination.ts`.  `value` is the raw
line value (6/7/8/9 in all reachable states). -/
structure LineState where
  value : Nat
  isChanging : Bool
  currentType : LineType
  futureType : LineType
deriving DecidableEq, Repr

instance : Inhabited LineState := ⟨⟨0, false, LineType.yin, LineType.yin⟩⟩

/-- Embeds `createLineState` (divination.ts lines 24-34). -/
def createLineState (value : Nat) : LineState :=
  let isYang := value = 7 ∨ value = 9
  let isChanging := value = 6 ∨ value = 9
  { value := value
    isChanging := decide isChanging
    currentType := if isYang then LineType.yang else LineType.yin
    futureType :=
      if isChanging then (if isYang then LineType.yin else LineType.yang)
      else (if isYang then LineType.yang else LineType.yin) }

/-- The line type consulted by `linesToBinary` for line index `i`
(`lines[i].currentType` or `lines[i].futureType`).  JavaScript would crash
on a list shorter than 6; the embedding totalises with a default that is
never reached in the claims (which fix `lines.length = 6`). -/
def lineTypeAt (lines : List LineState) (useTransformed : Bool) (i : Nat) : LineType :=
  if useTransformed then (lines.getD i default).futureType
  else (lines.getD i default).currentType

/-- Embeds `linesToBinary` (divination.ts lines 40-49): bit i is set iff
line i (0 = bottom) is yang. -/
def linesToBinary (lines : List LineState) (useTransformed : Bool) : Nat :=
  (List.range 6).foldl
    (fun binary i =>
      if lineTypeAt lines useTransformed i = LineType.yang then binary ||| (1 <<< i)
      else binary)
    0

/-- The same 6-bit accumulation as `linesToBinary`, abstracted over the
per-line yang test; used to reason about the binary pattern. -/
def binFun (f : Nat → Bool) : Nat :=
  (List.range 6).foldl (fun b i => if f i then b ||| (1 <<< i) else b) 0

/-- `binFun` restricted to its actual (finite) domain. -/
def binFunF (F : Fin 6 → Bool) : Nat :=
  binFun (fun i => if h : i < 6 then F ⟨i, h⟩ else false)

/-- Embeds `KING_WEN_SEQUENCE` (divination.ts lines 56-121): binary pattern
→ hexagram number.  A pattern absent from the JS record yields `undefined`,
which the caller treats as falsy; the embedding returns 0 for that case. -/
def KING_WEN_SEQUENCE (b : Nat) : Nat :=
  match b with
  | 0b111111 => 1
  | 0b000000 => 2
  | 0b100010 => 3
  | 0b010001 => 4
  | 0b111010 => 5
  | 0b010111 => 6
  | 0b010000 => 7
  | 0b000010 => 8
  | 0b111011 => 9
  | 0b110111 => 10
  | 0b111000 => 11
  | 0b000111 => 12
  | 0b101111 => 13
  | 0b111101 => 14
  | 0b001000 => 15
  | 0b000100 => 16
  | 0b100110 => 17
  | 0b011001 => 18
  | 0b110000 => 19
  | 0b000011 => 20
  | 0b100101 => 21
  | 0b101001 => 22
  | 0b000001 => 23
  | 0b100000 => 24
  | 0b100111 => 25
  | 0b111001 => 26
  | 0b100001 => 27
  | 0b011110 => 28
  | 0b010010 => 29
  | 0b101101 => 30
  | 0b001110 => 31
  | 0b011100 => 32
  | 0b001111 => 33
  | 0b111100 => 34
  | 0b000101 => 35
  | 0b101000 => 36
  | 0b101011 => 37
  | 0b110101 => 38
  | 0b001010 => 39
  | 0b010100 => 40
  | 0b110001 => 41
  | 0b100011 => 42
  | 0b111110 => 43
  | 0b011111 => 44
  | 0b000110 => 45
  | 0b011000 => 46
  | 0b010110 => 47
  | 0b011010 => 48
  | 0b101110 => 49
  | 0b011101 => 50
  | 0b100100 => 51
  | 0b001001 => 52
  | 0b001011 => 53
  | 0b110100 => 54
  | 0b101100 => 55
  | 0b001101 => 56
  | 0b011011 => 57
  | 0b110110 => 58
  | 0b010011 => 59
  | 0b110010 => 60
  | 0b110011 => 61
  | 0b001100 => 62
  | 0b101010 => 63
  | 0b010101 => 64
  | _ => 0

/-- Modelled from the spec: the hexagram catalog `hexagrams.json` is not
under `src/`; per spec §3/§6 it is a read-only dataset of exactly 64
entries keyed by `number` ∈ [1,64].  The claims only inspect `number`, so
an entry is represented by its number. -/
structure Hexagram where
  number : Nat
deriving DecidableEq, Repr

/-- Embeds `getHexagram` (divination.ts lines 126-129); the catalog `find`
is modelled from the spec (complete 64-entry catalog keyed 1-64). -/
def getHexagram (number : Nat) : Option Hexagram :=
  if number < 1 ∨ 64 < number then none else some ⟨number⟩

/-- Embeds `getHexagramByLines` (divination.ts lines 134-138).  The JS
`number ? getHexagram(number) : null` truthiness test is the `n = 0`
test (an absent pattern gives `undefined`, modelled as 0). -/
def getHexagramByLines (lines : List LineState) (useTransformed : Bool) : Option Hexagram :=
  let binary := linesToBinary lines useTransformed
  let number := KING_WEN_SEQUENCE binary
  if number ≠ 0 then getHexagram number else none

/- ═══════════════════  Divination: results  ═══════════════════ -/

inductive DivinationMethod where
  | image
  | coins
  | yarrow
deriving DecidableEq, Repr

/-- Embeds `DivinationResult` from `src/types/divination.ts`. -/
structure DivinationResult where
  lines : List LineState
  primaryHexagram : Hexagram
  changingLines : List Nat
  transformedHexagram : Option Hexagram
  method : DivinationMethod
deriving DecidableEq, Repr

/-- The changing-lines computation of `buildDivinationResult`
(divination.ts lines 368-370): map each line to its 1-based position if
changing else 0, then keep the positive entries. -/
def changingPositions (lines : List LineState) : List Nat :=
  ((lines.enum).map (fun p => if p.2.isChanging then p.1 + 1 else 0)).filter
    (fun pos => 0 < pos)

/-- Embeds `buildDivinationResult` (divination.ts lines 364-388).  The
`throw` on a missing primary hexagram is modelled as `none`. -/
def buildDivinationResult (lines : List LineState) (method : DivinationMethod) :
    Option DivinationResult :=
  let changingLines := changingPositions lines
  let primaryHexagram := getHexagramByLines lines false
  let transformedHexagram :=
    if 0 < changingLines.length then getHexagramByLines lines true else none
  match primaryHexagram with
  | none => none
  | some p =>
      some { lines := lines
             primaryHexagram := p
             changingLines := changingLines
             transformedHexagram := transformedHexagram
             method := method }

inductive Focus where
  | primary
  | transformed
  | both
deriving DecidableEq, Repr

/-- Embeds `ReadingInterpretation` from `src/types/divination.ts`. -/
structure ReadingInterpretation where
  changingCount : Nat
  focus : Focus
  description : String
  relevantLines : List Nat
deriving DecidableEq, Repr

/-- Embeds `getReadingInterpretation` (divination.ts lines 394-466). -/
def getReadingInterpretation (result : DivinationResult) : ReadingInterpretation :=
  let count := result.changingLines.length
  match count with
  | 0 =>
      { changingCount := 0, focus := Focus.primary
        description := "只看本卦卦辭", relevantLines := [] }
  | 1 =>
      { changingCount := 1, focus := Focus.primary
        description := "看本卦該爻爻辭", relevantLines := result.changingLines }
  | 2 =>
      { changingCount := 2, focus := Focus.primary
        description := "看本卦兩變爻，以上爻為主", relevantLines := result.changingLines }
  | 3 =>
      { changingCount := 3, focus := Focus.both
        description := "看本卦 + 之卦卦辭", relevantLines := [] }
  | 4 =>
      let stableLines := [1, 2, 3, 4, 5, 6].filter
        (fun pos => !(result.changingLines.contains pos))
      { changingCount := 4, focus := Focus.transformed
        description := "看之卦兩不變爻，以下爻為主", relevantLines := stableLines }
  | 5 =>
      let stableLine := [1, 2, 3, 4, 5, 6].find?
        (fun pos => !(result.changingLines.contains pos))
      { changingCount := 5, focus := Focus.transformed
        description := "看之卦不變爻爻辭"
        relevantLines := match stableLine with | some p => [p] | none => [] }
  | 6 =>
      let isQianOrKun := result.primaryHexagram.number = 1 ∨ result.primaryHexagram.number = 2
      { changingCount := 6
        focus := if isQianOrKun then Focus.primary else Focus.transformed
        description := if isQianOrKun then "乾坤看用辭" else "看之卦卦辭"
        relevantLines := [] }
  | c =>
      { changingCount := c, focus := Focus.primary
        description := "看本卦卦辭", relevantLines := [] }

/- ═══════════════════  Seeded PRNG and image hashing  ═══════════════════ -/

/-- One call of the Mulberry32 closure built by `createSeededRandom`
(divination.ts lines 189-196).  The mutable `seed` is the state; the JS
float additions stay exact (all values < 2^53 in every reachable use), and
every bitwise step coerces to a 32-bit pattern, modelled by `% 2^32`. -/
def mulberry32Next (seed : Nat) : ℚ × Nat :=
  let seed' := seed + 0x6D2B79F5
  let t0 := seed' % 2 ^ 32
  let t1 := ((t0 ^^^ (t0 >>> 15)) * (t0 ||| 1)) % 2 ^ 32
  let t2 := t1 ^^^ ((t1 + ((t1 ^^^ (t1 >>> 7)) * (t1 ||| 61)) % 2 ^ 32) % 2 ^ 32)
  let u : Nat := (t2 ^^^ (t2 >>> 14)) % 2 ^ 32
  ((u : ℚ) / 4294967296, seed')

/-- `ImageData`: RGBA pixel buffer with dimensions (browser API type used
throughout divination.ts). -/
structure ImageData where
  width : Nat
  height : Nat
  data : List Nat
deriving DecidableEq, Repr

/-- The JS absolute value of the signed 32-bit reading of the hash
pattern (`Math.abs(hash)` after `| 0` coercions). -/
def jsAbsInt32 (p : Nat) : Nat :=
  if p < 2 ^ 31 then p else 2 ^ 32 - p

/-- Embeds `hashImageData` (divination.ts lines 174-184): fold every 400th
byte with `hash = ((hash << 5) - hash + byte) | 0`, then `Math.abs`.  The
running pattern is kept as a Nat < 2^32; the signed subtraction is done in
ℤ and re-wrapped. -/
def hashImageData (imageData : ImageData) : Nat :=
  let len := imageData.data.length
  let sampled := (List.range ((len + 399) / 400)).map (fun k => k * 400)
  let p := sampled.foldl
    (fun hash i =>
      (((32 * (hash : Int) - hash + imageData.data.getD i 0) % 2 ^ 32).toNat))
    0
  jsAbsInt32 p

/- ═══════════════════  Region brightness  ═══════════════════ -/

/-- Per-pixel luminance `0.299R + 0.587G + 0.114B` (divination.ts
line 161); JS float arithmetic is modelled exactly over ℚ. -/
def luminance (imageData : ImageData) (idx : Nat) : ℚ :=
  (0.299 : ℚ) * imageData.data.getD idx 0
    + (0.587 : ℚ) * imageData.data.getD (idx + 1) 0
    + (0.114 : ℚ) * imageData.data.getD (idx + 2) 0

/-- Embeds `getRegionBrightness` (divination.ts lines 148-168): mean
luminance over rows [startY, endY), full width; 128 when the region is
empty. -/
def getRegionBrightness (imageData : ImageData) (startY endY : Nat) : ℚ :=
  let idxs := (List.range' startY (endY - startY)).flatMap
    (fun y => (List.range imageData.width).map (fun x => (y * imageData.width + x) * 4))
  let totalBrightness := idxs.foldl (fun acc idx => acc + luminance imageData idx) 0
  let pixelCount := idxs.length
  if 0 < pixelCount then totalBrightness / (pixelCount : ℚ) else 128

/- ═══════════════════  The three divination methods  ═══════════════════ -/

/-- The common 6-iteration line loop of the three methods: each iteration
draws a line value from the evolving PRNG state and pushes
`createLineState value`. -/
def buildLines (step : Nat → Nat → Nat × Nat) (seed : Nat) : List LineState × Nat :=
  (List.range 6).foldl
    (fun acc i => (acc.1 ++ [createLineState (step i acc.2).1], (step i acc.2).2))
    ([], seed)

/-- One line of `imageMethod` (divination.ts lines 217-237): band
brightness decides yang/yin, one PRNG draw (< 0.25) decides changing. -/
def imageMethodStep (imageData : ImageData) (i : Nat) (seed : Nat) : Nat × Nat :=
  let bandHeight : ℚ := (imageData.height : ℚ) / 6
  let startY := (⌊(i : ℚ) * bandHeight⌋).toNat
  let endY := (⌊((i : ℚ) + 1) * bandHeight⌋).toNat
  let brightness := getRegionBrightness imageData startY endY
  let isYang := 128 < brightness
  let r := (mulberry32Next seed).1
  let isChanging := r < (0.25 : ℚ)
  let value := if isYang then (if isChanging then 9 else 7)
    else (if isChanging then 6 else 8)
  (value, (mulberry32Next seed).2)

/-- Embeds `imageMethod` (divination.ts lines 209-240). -/
def imageMethod (imageData : ImageData) : Option DivinationResult :=
  let hash := hashImageData imageData
  buildDivinationResult (buildLines (imageMethodStep imageData) hash).1
    DivinationMethod.image

/-- One line of `coinsMethod` (divination.ts lines 257-273): three coin
draws, heads (3) with probability `0.3 + (brightness/255)*0.4`, summed. -/
def coinsMethodStep (imageData : ImageData) (i : Nat) (seed : Nat) : Nat × Nat :=
  let bandHeight : ℚ := (imageData.height : ℚ) / 6
  let startY := (⌊(i : ℚ) * bandHeight⌋).toNat
  let endY := (⌊((i : ℚ) + 1) * bandHeight⌋).toNat
  let brightness := getRegionBrightness imageData startY endY
  let headsProbability := (0.3 : ℚ) + brightness / 255 * (0.4 : ℚ)
  (List.range 3).foldl
    (fun acc _ =>
      (acc.1 + (if (mulberry32Next acc.2).1 < headsProbability then 3 else 2),
        (mulberry32Next acc.2).2))
    (0, seed)

/-- Embeds `coinsMethod` (divination.ts lines 249-277). -/
def coinsMethod (imageData : ImageData) : Option DivinationResult :=
  let hash := hashImageData imageData
  buildDivinationResult (buildLines (coinsMethodStep imageData) hash).1
    DivinationMethod.coins

/- ═══════════════════  Yarrow stalk simulation  ═══════════════════ -/

/-- The random split of `simulateYarrowStalkDivision` (divination.ts
line 319): `Math.floor(random() * (pile - 1)) + 1`. -/
def yarrowLeftPile (pile : Int) (r : ℚ) : Int :=
  ⌊r * ((pile : ℚ) - 1)⌋ + 1

/-- divination.ts line 320: `rightPile = pile - leftPile`. -/
def yarrowRightPile (pile : Int) (r : ℚ) : Int :=
  pile - yarrowLeftPile pile r

/-- The JS `x % 4 || 4` idiom (divination.ts lines 327, 331): remainder by
4 (JS `%` truncates toward zero, i.e. `Int.tmod`), with 0 replaced by 4. -/
def mod4Or4 (x : Int) : Int :=
  if x.tmod 4 = 0 then 4 else x.tmod 4

/-- One division of `simulateYarrowStalkDivision` (divination.ts lines
312-334) given the pile of stalks for this division and the PRNG draw:
returns the in-hand count. -/
def yarrowDivisionInHand (stalks : Int) (r : ℚ) : Int :=
  let pile := stalks - 1
  let leftPile := yarrowLeftPile pile r
  let right := yarrowRightPile pile r - 1
  let leftRemainder := mod4Or4 leftPile
  let rightRemainder := mod4Or4 right
  1 + leftRemainder + rightRemainder

/-- The value remap at the end of `simulateYarrowStalkDivision`
(divination.ts lines 347-352); `none` models an absent key. -/
def yarrowValueMap (sum : Int) : Option Nat :=
  if sum = 6 then some 9
  else if sum = 7 then some 8
  else if sum = 8 then some 8
  else if sum = 9 then some 6
  else none

/-- The three per-division classifications summed (divination.ts lines
340-343), as a function of the three in-hand remainders. -/
def yarrowClassSum (rem1 rem2 rem3 : Int) : Int :=
  (if rem1 = 5 then 3 else 2) + (if rem2 = 4 then 3 else 2)
    + (if rem3 = 4 then 3 else 2)

/-- Embeds `simulateYarrowStalkDivision` (divination.ts lines 308-355) with
the three-division loop unrolled (division d uses 49 minus the prior
remainders as its stalk count).  `next` is the PRNG (`random`), threaded
as explicit state.  The JS `valueMap[sum] || 7` fallback is `getD 7`. -/
def simulateYarrowStalkDivision {S : Type} (next : S → ℚ × S) (s : S) : Nat × S :=
  let (r1, s1) := next s
  let rem1 := yarrowDivisionInHand 49 r1
  let (r2, s2) := next s1
  let rem2 := yarrowDivisionInHand (49 - rem1) r2
  let (r3, s3) := next s2
  let rem3 := yarrowDivisionInHand (49 - rem1 - rem2) r3
  let sum := yarrowClassSum rem1 rem2 rem3
  ((yarrowValueMap sum).getD 7, s3)

/-- Embeds `yarrowMethod` (divination.ts lines 290-302). -/
def yarrowMethod (imageData : ImageData) : Option DivinationResult :=
  let hash := hashImageData imageData
  buildDivinationResult
    (buildLines (fun _ seed => simulateYarrowStalkDivision mulberry32Next seed) hash).1
    DivinationMethod.yarrow

/- ═══════════════════  GIF: LZW decompression  ═══════════════════ -/

/-- State of the `decompressLZW` loop (gifParser.ts lines 222-307).
`bitCount` is an `Int` because the JS counter can go negative once the
stream is exhausted; `prevCode` uses the JS `-1` sentinel. -/
structure LZWState where
  codeSize : Nat
  codeMask : Nat
  nextCode : Nat
  table : List (List Nat)
  output : List Nat
  outputIndex : Nat
  bits : Nat
  bitCount : Int
  dataIndex : Nat
  prevCode : Int
deriving DecidableEq, Repr

/-- The seeded code table (gifParser.ts lines 231-236, also restored at
lines 263-267): singletons `[0..clearCode-1]`, then empty entries at
`clearCode` and `endCode`. -/
def lzwInitTable (clearCode : Nat) : List (List Nat) :=
  (List.range clearCode).map (fun i => [i]) ++ [[], []]

/-- Initial LZW state (gifParser.ts lines 223-244); the output buffer is a
zero-filled `pixelCount`-byte array. -/
def initLZWState (minCodeSize pixelCount : Nat) : LZWState :=
  { codeSize := minCodeSize + 1
    codeMask := 2 ^ (minCodeSize + 1) - 1
    nextCode := 2 ^ minCodeSize + 2
    table := lzwInitTable (2 ^ minCodeSize)
    output := List.replicate pixelCount 0
    outputIndex := 0
    bits := 0
    bitCount := 0
    dataIndex := 0
    prevCode := -1 }

/-- The bit-refill loop of `readCode` (gifParser.ts lines 247-250). -/
def readCodeLoop (data : List Nat) (codeSize : Nat) (bits : Nat) (bitCount : Int)
    (dataIndex : Nat) : Nat × Int × Nat :=
  if h : bitCount < (codeSize : Int) ∧ dataIndex < data.length then
    readCodeLoop data codeSize (bits ||| (data.getD dataIndex 0 <<< bitCount.toNat))
      (bitCount + 8) (dataIndex + 1)
  else (bits, bitCount, dataIndex)
termination_by data.length - dataIndex
decreasing_by omega

/-- `readCode` (gifParser.ts lines 246-255): refill, mask out one code,
shift the accumulator. -/
def readCodeSt (data : List Nat) (st : LZWState) : Nat × LZWState :=
  let r := readCodeLoop data st.codeSize st.bits st.bitCount st.dataIndex
  let code := r.1 &&& st.codeMask
  (code, { st with bits := r.1 >>> st.codeSize
                   bitCount := r.2.1 - st.codeSize
                   dataIndex := r.2.2 })

/-- The entry-emission loop (gifParser.ts lines 287-291): write each byte
at `outputIndex` while it is below `pixelCount`. -/
def writePixels (entry : List Nat) (output : List Nat) (outputIndex pixelCount : Nat) :
    List Nat × Nat :=
  entry.foldl
    (fun acc pixel => if acc.2 < pixelCount then (acc.1.set acc.2 pixel, acc.2 + 1) else acc)
    (output, outputIndex)

/-- One iteration of the `decompressLZW` main loop (gifParser.ts lines
257-304).  Returns `(true, st)` to continue looping and `(false, st)` when
the loop stops (guard failure, end code, or invalid code). -/
def lzwStep (data : List Nat) (minCodeSize pixelCount : Nat) (st : LZWState) :
    Bool × LZWState :=
  let clearCode := 2 ^ minCodeSize
  let endCode := clearCode + 1
  if st.outputIndex < pixelCount ∧ st.dataIndex ≤ data.length then
    let p := readCodeSt data st
    let code := p.1
    let st1 := p.2
    if code = clearCode then
      (true, { st1 with codeSize := minCodeSize + 1
                        codeMask := 2 ^ (minCodeSize + 1) - 1
                        nextCode := endCode + 1
                        table := lzwInitTable clearCode
                        prevCode := -1 })
    else if code = endCode then
      (false, st1)
    else
      let entryOpt : Option (List Nat) :=
        if code < st1.nextCode then some (st1.table.getD code [])
        else if code = st1.nextCode ∧ st1.prevCode ≠ -1 then
          some (st1.table.getD st1.prevCode.toNat []
            ++ [(st1.table.getD st1.prevCode.toNat []).getD 0 0])
        else none
      match entryOpt with
      | none => (false, st1)
      | some entry =>
          let w := writePixels entry st1.output st1.outputIndex pixelCount
          let st2 := { st1 with output := w.1, outputIndex := w.2 }
          let st3 :=
            if st2.prevCode ≠ -1 ∧ st2.nextCode < 4096 then
              let newTable := st2.table
                ++ [st2.table.getD st2.prevCode.toNat [] ++ [entry.getD 0 0]]
              let nextCode' := st2.nextCode + 1
              if st2.codeMask < nextCode' ∧ st2.codeSize < 12 then
                { st2 with table := newTable, nextCode := nextCode'
                           codeSize := st2.codeSize + 1
                           codeMask := 2 ^ (st2.codeSize + 1) - 1 }
              else { st2 with table := newTable, nextCode := nextCode' }
            else st2
          (true, { st3 with prevCode := (code : Int) })
  else (false, st)

/-- Runs the `decompressLZW` loop for at most `fuel` iterations, returning
the state at the stop (or the current state when fuel runs out; every
safety property proved below holds for every fuel). -/
def lzwRunState (data : List Nat) (minCodeSize pixelCount : Nat) :
    Nat → LZWState → LZWState
  | 0, st => st
  | fuel + 1, st =>
      match lzwStep data minCodeSize pixelCount st with
      | (false, st') => st'
      | (true, st') => lzwRunState data minCodeSize pixelCount fuel st'

/-- Embeds `decompressLZW` (gifParser.ts lines 222-307): the returned
pixel buffer. -/
def decompressLZW (fuel : Nat) (data : List Nat) (minCodeSize pixelCount : Nat) :
    List Nat :=
  (lzwRunState data minCodeSize pixelCount fuel (initLZWState minCodeSize pixelCount)).output

/-- Fuel that dominates the LZW loop's possible iteration count for use by
the `parseGif` model; no theorem below depends on this choice. -/
def lzwFuel (data : List Nat) (pixelCount : Nat) : Nat :=
  pixelCount + 8 * data.length + 8

/- ═══════════════════  GIF: deinterlacing  ═══════════════════ -/

/-- Writes a segment of bytes at consecutive positions (the inner
`result[y * width + x] = pixels[srcIndex++]` loop of `deinterlace`). -/
def writeSeg (res : List Nat) (pos : Nat) (seg : List Nat) : List Nat :=
  match seg, pos with
  | [], _ => res
  | a :: l, p => writeSeg (res.set p a) (p + 1) l

/-- Row indices of one interlace pass: `start, start+step, ...` below
`height` (gifParser.ts line 323). -/
def rowsFrom (step s h : Nat) : List Nat :=
  if _h : s < h ∧ 0 < step then s :: rowsFrom step (s + step) h else []
termination_by h - s
decreasing_by omega

/-- All row indices in pass order for the 4 GIF interlace passes
(gifParser.ts lines 314-319): starts 0,4,2,1 with strides 8,8,4,2. -/
def passRows (h : Nat) : List Nat :=
  rowsFrom 8 0 h ++ rowsFrom 8 4 h ++ rowsFrom 4 2 h ++ rowsFrom 2 1 h

/-- The row-copy loop of `deinterlace` (gifParser.ts lines 321-328):
consume `width` source bytes per row in pass order, placing them at the
row's true position. -/
def deinterlaceLoop (pixels : List Nat) (w : Nat) :
    List Nat → Nat → List Nat → List Nat
  | res, _, [] => res
  | res, src, y :: ys =>
      deinterlaceLoop pixels w (writeSeg res (y * w) ((pixels.drop src).take w)) (src + w) ys

/-- Embeds `deinterlace` (gifParser.ts lines 312-331). -/
def deinterlace (pixels : List Nat) (width height : Nat) : List Nat :=
  deinterlaceLoop pixels width (List.replicate pixels.length 0) 0 (passRows height)

/- ═══════════════════  GIF: isAnimatedGif  ═══════════════════ -/

/-- The GIF signature test shared by `parseGif` and `isAnimatedGif`
(gifParser.ts lines 25-26 and 340-341):
`String.fromCharCode(...bytes.slice(0, 6)).startsWith('GIF')` holds iff
the buffer has at least 3 bytes and they are 'G','I','F'. -/
def gifSignatureOk (bytes : List Nat) : Bool :=
  decide (3 ≤ bytes.length) && (bytes.getD 0 0 == 71) && (bytes.getD 1 0 == 73)
    && (bytes.getD 2 0 == 70)

/-- The bounds-checked sub-block skip loop of `isAnimatedGif`
(gifParser.ts lines 362-364 and 382-384):
`while (offset < bytes.length && bytes[offset] !== 0) offset += bytes[offset] + 1`.
The result carries the fact that the offset never moves backwards. -/
def skipSubBlocks (bytes : List Nat) (offset : Nat) : { o : Nat // offset ≤ o } :=
  if h : offset < bytes.length ∧ bytes.getD offset 0 ≠ 0 then
    let r := skipSubBlocks bytes (offset + (bytes.getD offset 0 + 1))
    ⟨r.1, by have := r.2; omega⟩
  else ⟨offset, Nat.le_refl _⟩
termination_by bytes.length - offset
decreasing_by omega

/-- The block-walk loop of `isAnimatedGif` (gifParser.ts lines 356-389).
Every sub-loop checks the offset against the buffer length, so the walk is
total (well-founded on the remaining bytes); the walk short-circuits with
`true` at the second image descriptor. -/
def isAnimatedLoop (bytes : List Nat) (offset imageCount : Nat) : Bool :=
  if _h : offset < bytes.length then
    let blockType := bytes.getD offset 0
    let o := offset + 1
    if blockType = 0x21 then
      match skipSubBlocks bytes (o + 1) with
      | ⟨o2, ho2⟩ => isAnimatedLoop bytes (o2 + 1) imageCount
    else if blockType = 0x2C then
      if 1 < imageCount + 1 then true
      else
        let imgPacked := bytes.getD (o + 8) 0
        let o4 := if imgPacked &&& 0x80 ≠ 0
          then o + 9 + (1 <<< ((imgPacked &&& 0x07) + 1)) * 3 else o + 9
        match skipSubBlocks bytes (o4 + 1) with
        | ⟨o5, ho5⟩ => isAnimatedLoop bytes (o5 + 1) (imageCount + 1)
    else if blockType = 0x3B ∨ blockType = 0x00 then 1 < imageCount
    else isAnimatedLoop bytes o imageCount
  else 1 < imageCount
termination_by bytes.length - offset
decreasing_by
  · omega
  · have h9 : offset + 1 + 9 ≤ o4 := by unfold o4; split <;> omega
    omega
  · omega

/-- Embeds `isAnimatedGif` (gifParser.ts lines 336-392).  Undefined reads
of `bytes[10]` / `imgPacked` feed only bitwise operators, which coerce
`undefined` to 0, so `getD _ 0` is exact. -/
def isAnimatedGif (bytes : List Nat) : Bool :=
  if gifSignatureOk bytes then
    let packed := bytes.getD 10 0
    let offset := if packed &&& 0x80 ≠ 0 then 13 + (1 <<< ((packed &&& 0x07) + 1)) * 3
      else 13
    isAnimatedLoop bytes offset 0
  else false

/-- Modelled from the spec: the same block walk as `isAnimatedLoop` but
counting every image descriptor instead of short-circuiting at the second
one; comparison definition for the `isAnimatedGif` characterization. -/
def countImagesLoop (bytes : List Nat) (offset imageCount : Nat) : Nat :=
  if _h : offset < bytes.length then
    let blockType := bytes.getD offset 0
    let o := offset + 1
    if blockType = 0x21 then
      match skipSubBlocks bytes (o + 1) with
      | ⟨o2, ho2⟩ => countImagesLoop bytes (o2 + 1) imageCount
    else if blockType = 0x2C then
      let imgPacked := bytes.getD (o + 8) 0
      let o4 := if imgPacked &&& 0x80 ≠ 0
        then o + 9 + (1 <<< ((imgPacked &&& 0x07) + 1)) * 3 else o + 9
      match skipSubBlocks bytes (o4 + 1) with
      | ⟨o5, ho5⟩ => countImagesLoop bytes (o5 + 1) (imageCount + 1)
    else if blockType = 0x3B ∨ blockType = 0x00 then imageCount
    else countImagesLoop bytes o imageCount
  else imageCount
termination_by bytes.length - offset
decreasing_by
  · omega
  · have h9 : offset + 1 + 9 ≤ o4 := by unfold o4; split <;> omega
    omega
  · omega

/-- Modelled from the spec: total number of image descriptors the
`isAnimatedGif` walk encounters (0 when the signature check fails). -/
def countImageDescriptors (bytes : List Nat) : Nat :=
  if gifSignatureOk bytes then
    let packed := bytes.getD 10 0
    let offset := if packed &&& 0x80 ≠ 0 then 13 + (1 <<< ((packed &&& 0x07) + 1)) * 3
      else 13
    countImagesLoop bytes offset 0
  else 0

/- ═══════════════════  GIF: parseGif block walk  ═══════════════════ -/

/-- A JavaScript numeric offset in `parseGif`: `none` models `NaN` (which
arises when an out-of-bounds `undefined` read is added to the offset). -/
def jsAdd (a b : Option Int) : Option Int :=
  match a, b with
  | some x, some y => some (x + y)
  | _, _ => none

/-- `bytes[offset]` with JS semantics: `undefined` (`none`) when the index
is `NaN` or out of bounds. -/
def jsGetByte (bytes : List Nat) (off : Option Int) : Option Int :=
  off.bind (fun o =>
    if 0 ≤ o ∧ o < (bytes.length : Int) then some ((bytes.getD o.toNat 0 : Nat) : Int)
    else none)

/-- Coercion applied by JS bitwise operators to a possibly-undefined byte
(`undefined` → 0; all in-range values are 0..255). -/
def jsByteVal (v : Option Int) : Nat :=
  (v.getD 0).toNat

/-- `bytes.slice(start, end)` for the (always in-range in practice)
offsets of `parseGif`; `NaN` bounds coerce to 0 as in JS `ToInteger`. -/
def jsSlice (bytes : List Nat) (startO endO : Option Int) : List Nat :=
  let s := (startO.getD 0).toNat
  let e := (endO.getD 0).toNat
  (bytes.drop s).take (e - s)

/-- One pre-composite frame record collected by the `parseGif` block loop
(gifParser.ts lines 46, 122-132). -/
structure GifFrameRec where
  data : List Nat
  delay : Nat
  left : Nat
  top : Nat
  frameWidth : Nat
  frameHeight : Nat
  localColorTable : Option (List Nat)
  disposalMethod : Nat
  transparentIndex : Option Int
deriving DecidableEq, Repr

/-- Graphics-control state threaded through the block loop
(gifParser.ts lines 47-49) plus the frames collected so far. -/
structure PGCtx where
  currentDelay : Nat
  transparentIndex : Option Int
  disposalMethod : Nat
  frames : List GifFrameRec
deriving DecidableEq, Repr

/-- Control position of the `parseGif` block loop: the top of the `while`
(`blocks`), the unknown-extension sub-block skip loop of lines 71-74
(`skipExt`), or the image-data sub-block loop of lines 100-104
(`imgData`, carrying the partial image descriptor). -/
inductive PGMode where
  | blocks
  | skipExt
  | imgData (left top frameWidth frameHeight : Nat) (interlaced : Bool)
      (localColorTable : Option (List Nat)) (minCodeSize : Nat) (collected : List Nat)
deriving DecidableEq, Repr

structure PGState where
  offset : Option Int
  mode : PGMode
  ctx : PGCtx
deriving DecidableEq, Repr

/-- Reads a 16-bit little-endian value at `off` (gifParser.ts pattern
`bytes[o] | (bytes[o+1] << 8)`), with JS bitwise `undefined` → 0. -/
def jsWord (bytes : List Nat) (off : Option Int) : Nat :=
  jsByteVal (jsGetByte bytes off) ||| (jsByteVal (jsGetByte bytes (jsAdd off (some 1))) <<< 8)

/-- One step of the `parseGif` block walk (gifParser.ts lines 52-148).
`Sum.inr frames` means the loop has ended (guard failure, trailer, or
unknown block) with the given frame records; the trailing canvas
compositing (lines 151-216) is DOM-bound and outside this model. -/
def parseGifStep (bytes : List Nat) (s : PGState) : PGState ⊕ List GifFrameRec :=
  match s.mode with
  | PGMode.blocks =>
      match s.offset with
      | none => Sum.inr s.ctx.frames
      | some o =>
          if o < (bytes.length : Int) then
            let blockType := jsGetByte bytes s.offset
            let off1 := jsAdd s.offset (some 1)
            if blockType = some 0x21 then
              let extType := jsGetByte bytes off1
              let off2 := jsAdd off1 (some 1)
              if extType = some 0xF9 then
                let off3 := jsAdd off2 (some 1)
                let gcPacked := jsByteVal (jsGetByte bytes off3)
                let off4 := jsAdd off3 (some 1)
                let disposalMethod := (gcPacked >>> 2) &&& 0x07
                let hasTransparent := gcPacked &&& 0x01 ≠ 0
                let currentDelay := jsWord bytes off4 * 10
                let off5 := jsAdd off4 (some 2)
                let ti := if hasTransparent then jsGetByte bytes off5 else some (-1)
                let off6 := if hasTransparent then jsAdd off5 (some 1) else off5
                let off7 := jsAdd off6 (some 1)
                Sum.inl { offset := off7, mode := PGMode.blocks
                          ctx := { s.ctx with currentDelay := currentDelay
                                              transparentIndex := ti
                                              disposalMethod := disposalMethod } }
              else
                Sum.inl { s with offset := off2, mode := PGMode.skipExt }
            else if blockType = some 0x2C then
              let left := jsWord bytes off1
              let top := jsWord bytes (jsAdd off1 (some 2))
              let frameWidth := jsWord bytes (jsAdd off1 (some 4))
              let frameHeight := jsWord bytes (jsAdd off1 (some 6))
              let imgPacked := jsByteVal (jsGetByte bytes (jsAdd off1 (some 8)))
              let off9 := jsAdd off1 (some 9)
              let hasLocalColorTable := imgPacked &&& 0x80 ≠ 0
              let localColorTableSize := 1 <<< ((imgPacked &&& 0x07) + 1)
              let interlaced := imgPacked &&& 0x40 ≠ 0
              let lct := if hasLocalColorTable then
                  some (jsSlice bytes off9 (jsAdd off9 (some (localColorTableSize * 3))))
                else none
              let off10 := if hasLocalColorTable then
                  jsAdd off9 (some (localColorTableSize * 3))
                else off9
              let minCodeSize := jsByteVal (jsGetByte bytes off10)
              let off11 := jsAdd off10 (some 1)
              Sum.inl { offset := off11
                        mode := PGMode.imgData left top frameWidth frameHeight interlaced
                          lct minCodeSize []
                        ctx := s.ctx }
            else if blockType = some 0x3B then Sum.inr s.ctx.frames
            else if blockType = some 0x00 then Sum.inl { s with offset := off1 }
            else Sum.inr s.ctx.frames
          else Sum.inr s.ctx.frames
  | PGMode.skipExt =>
      if jsGetByte bytes s.offset ≠ some 0 then
        Sum.inl { s with
          offset := jsAdd s.offset (jsAdd (jsGetByte bytes s.offset) (some 1)) }
      else
        Sum.inl { s with offset := jsAdd s.offset (some 1), mode := PGMode.blocks }
  | PGMode.imgData left top fw fh interlaced lct minCodeSize collected =>
      if jsGetByte bytes s.offset ≠ some 0 then
        let blockSize := jsGetByte bytes s.offset
        let off1 := jsAdd s.offset (some 1)
        let chunk := jsSlice bytes off1 (jsAdd off1 blockSize)
        Sum.inl { s with offset := jsAdd off1 blockSize
                         mode := PGMode.imgData left top fw fh interlaced lct minCodeSize
                           (collected ++ chunk) }
      else
        let off1 := jsAdd s.offset (some 1)
        let pixels := decompressLZW (lzwFuel collected (fw * fh)) collected minCodeSize
          (fw * fh)
        let finalPixels := if interlaced then deinterlace pixels fw fh else pixels
        let frame : GifFrameRec :=
          { data := finalPixels
            delay := if s.ctx.currentDelay ≠ 0 then s.ctx.currentDelay else 100
            left := left, top := top, frameWidth := fw, frameHeight := fh
            localColorTable := lct
            disposalMethod := s.ctx.disposalMethod
            transparentIndex := s.ctx.transparentIndex }
        Sum.inl { offset := off1, mode := PGMode.blocks
                  ctx := { currentDelay := 100, transparentIndex := some (-1)
                           disposalMethod := 0, frames := s.ctx.frames ++ [frame] } }

/-- Runs the block walk for at most `fuel` steps; `none` means the loop
was still running when the fuel ran out. -/
def parseGifRun (bytes : List Nat) : Nat → PGState → Option (List GifFrameRec)
  | 0, _ => none
  | fuel + 1, s =>
      match parseGifStep bytes s with
      | Sum.inl s' => parseGifRun bytes fuel s'
      | Sum.inr frames => some frames

/-- Initial block-walk state of `parseGif` (gifParser.ts lines 30-49):
offset 13 plus the global color table if flagged. -/
def parseGifInitState (bytes : List Nat) : PGState :=
  let packed := bytes.getD 10 0
  let offset : Int := if packed &&& 0x80 ≠ 0 then 13 + (1 <<< ((packed &&& 0x07) + 1)) * 3
    else 13
  { offset := some offset
    mode := PGMode.blocks
    ctx := { currentDelay := 100, transparentIndex := some (-1), disposalMethod := 0
             frames := [] } }

/-- Embeds `parseGif` up to the end of its block loop (gifParser.ts lines
21-148): `Except.error` models the signature throw, `Except.ok none`
means the block loop has not terminated within `fuel` steps, and
`Except.ok (some frames)` is a completed walk. -/
def parseGifBlocks (fuel : Nat) (bytes : List Nat) : Except Unit (Option (List GifFrameRec)) :=
  if gifSignatureOk bytes then Except.ok (parseGifRun bytes fuel (parseGifInitState bytes))
  else Except.error ()

/-- The truncated GIF buffer exhibiting the `parseGif` divergence: a valid
"GIF89a" signature and screen descriptor (no global color table) followed
by an extension introducer 0x21, a non-graphics-control extension label
0x01, and a sub-block size byte 0xFF that points past the end of the
buffer. -/
def badBytesC3 : List Nat :=
  [71, 73, 70, 56, 57, 97, 0, 0, 0, 0, 0, 0, 0, 0x21, 0x01, 0xFF]

/- ═══════════════════  Theorems: King Wen lookup  ═══════════════════ -/

theorem linesToBinary_eq_binFunF (lines : List LineState) (u : Bool) :
    linesToBinary lines u
      = binFunF (fun i : Fin 6 => decide (lineTypeAt lines u i.val = LineType.yang)) := by
  unfold linesToBinary binFunF binFun
  refine (List.foldl_ext _ _ 0 ?_).symm
  intro b i hi
  rw [List.mem_range] at hi
  simp [hi]

theorem binFunF_lt : ∀ F : Fin 6 → Bool, binFunF F < 64 := by decide

set_option maxRecDepth 40000 in
theorem binFunF_injective : ∀ F G : Fin 6 → Bool, binFunF F = binFunF G → F = G := by
  decide

set_option maxRecDepth 8000 in
theorem kingWen_mem : ∀ b, b < 64 →
    1 ≤ KING_WEN_SEQUENCE b ∧ KING_WEN_SEQUENCE b ≤ 64 := by decide

set_option maxRecDepth 8000 in
theorem kingWen_inj : ∀ a, a < 64 → ∀ b, b < 64 →
    KING_WEN_SEQUENCE a = KING_WEN_SEQUENCE b → a = b := by decide

set_option maxRecDepth 8000 in
theorem kingWen_surj : ∀ n, n ≤ 64 → 1 ≤ n →
    ∃ b, b < 64 ∧ KING_WEN_SEQUENCE b = n := by decide

theorem linesToBinary_lt (lines : List LineState) (u : Bool) :
    linesToBinary lines u < 64 := by
  rw [linesToBinary_eq_binFunF]; exact binFunF_lt _

/-- C1: the King Wen table maps every 6-bit pattern to a number in [1,64],
injectively and onto [1,64]; every 6-line pattern computed by
`getHexagramByLines` is below 64 and is assigned a number in [1,64]. -/
theorem kingWen_bijection_c1 :
    (∀ b, b < 64 → 1 ≤ KING_WEN_SEQUENCE b ∧ KING_WEN_SEQUENCE b ≤ 64)
    ∧ (∀ a, a < 64 → ∀ b, b < 64 → KING_WEN_SEQUENCE a = KING_WEN_SEQUENCE b → a = b)
    ∧ (∀ n, n ≤ 64 → 1 ≤ n → ∃ b, b < 64 ∧ KING_WEN_SEQUENCE b = n)
    ∧ (∀ (lines : List LineState) (u : Bool), lines.length = 6 →
        linesToBinary lines u < 64
        ∧ 1 ≤ KING_WEN_SEQUENCE (linesToBinary lines u)
        ∧ KING_WEN_SEQUENCE (linesToBinary lines u) ≤ 64) := by
  refine ⟨kingWen_mem, kingWen_inj, kingWen_surj, ?_⟩
  intro lines u _
  have h := linesToBinary_lt lines u
  exact ⟨h, (kingWen_mem _ h).1, (kingWen_mem _ h).2⟩

/-- Witness for C1 at concrete inputs. -/
theorem kingWen_bijection_c1_witness :
    (1 ≤ KING_WEN_SEQUENCE 5 ∧ KING_WEN_SEQUENCE 5 ≤ 64)
    ∧ (∃ b, b < 64 ∧ KING_WEN_SEQUENCE b = 30)
    ∧ (linesToBinary (List.replicate 6 (createLineState 7)) false < 64) :=
  ⟨kingWen_bijection_c1.1 5 (by decide),
   kingWen_bijection_c1.2.2.1 30 (by decide) (by decide),
   (kingWen_bijection_c1.2.2.2 (List.replicate 6 (createLineState 7)) false (by decide)).1⟩

/- ═══════════════════  Theorems: determinism (C2)  ═══════════════════ -/

/-- C2: the three divination methods are pure functions of the pixel
buffer: byte-identical `ImageData` values give the same seed, identical
results, identical line values, and identical primary hexagram numbers. -/
theorem methodsDeterministic_c2 :
    ∀ i1 i2 : ImageData, i1.width = i2.width → i1.height = i2.height →
      i1.data = i2.data →
      hashImageData i1 = hashImageData i2
      ∧ imageMethod i1 = imageMethod i2
      ∧ coinsMethod i1 = coinsMethod i2
      ∧ yarrowMethod i1 = yarrowMethod i2
      ∧ (imageMethod i1).map (fun r => r.lines.map LineState.value)
          = (imageMethod i2).map (fun r => r.lines.map LineState.value)
      ∧ (coinsMethod i1).map (fun r => r.lines.map LineState.value)
          = (coinsMethod i2).map (fun r => r.lines.map LineState.value)
      ∧ (yarrowMethod i1).map (fun r => r.lines.map LineState.value)
          = (yarrowMethod i2).map (fun r => r.lines.map LineState.value)
      ∧ (imageMethod i1).map (fun r => r.primaryHexagram.number)
          = (imageMethod i2).map (fun r => r.primaryHexagram.number)
      ∧ (coinsMethod i1).map (fun r => r.primaryHexagram.number)
          = (coinsMethod i2).map (fun r => r.primaryHexagram.number)
      ∧ (yarrowMethod i1).map (fun r => r.primaryHexagram.number)
          = (yarrowMethod i2).map (fun r => r.primaryHexagram.number) := by
  intro i1 i2 hw hh hd
  obtain ⟨w1, h1, d1⟩ := i1
  obtain ⟨w2, h2, d2⟩ := i2
  cases hw; cases hh; cases hd
  exact ⟨rfl, rfl, rfl, rfl, rfl, rfl, rfl, rfl, rfl, rfl⟩

/-- Witness for C2 on a concrete buffer. -/
theorem methodsDeterministic_c2_witness :
    hashImageData ⟨2, 3, List.replicate 24 0⟩ = hashImageData ⟨2, 3, List.replicate 24 0⟩
    ∧ imageMethod ⟨2, 3, List.replicate 24 0⟩ = imageMethod ⟨2, 3, List.replicate 24 0⟩
    ∧ coinsMethod ⟨2, 3, List.replicate 24 0⟩ = coinsMethod ⟨2, 3, List.replicate 24 0⟩
    ∧ yarrowMethod ⟨2, 3, List.replicate 24 0⟩ = yarrowMethod ⟨2, 3, List.replicate 24 0⟩
    ∧ (imageMethod ⟨2, 3, List.replicate 24 0⟩).map (fun r => r.lines.map LineState.value)
        = (imageMethod ⟨2, 3, List.replicate 24 0⟩).map (fun r => r.lines.map LineState.value)
    ∧ (coinsMethod ⟨2, 3, List.replicate 24 0⟩).map (fun r => r.lines.map LineState.value)
        = (coinsMethod ⟨2, 3, List.replicate 24 0⟩).map (fun r => r.lines.map LineState.value)
    ∧ (yarrowMethod ⟨2, 3, List.replicate 24 0⟩).map (fun r => r.lines.map LineState.value)
        = (yarrowMethod ⟨2, 3, List.replicate 24 0⟩).map (fun r => r.lines.map LineState.value)
    ∧ (imageMethod ⟨2, 3, List.replicate 24 0⟩).map (fun r => r.primaryHexagram.number)
        = (imageMethod ⟨2, 3, List.replicate 24 0⟩).map (fun r => r.primaryHexagram.number)
    ∧ (coinsMethod ⟨2, 3, List.replicate 24 0⟩).map (fun r => r.primaryHexagram.number)
        = (coinsMethod ⟨2, 3, List.replicate 24 0⟩).map (fun r => r.primaryHexagram.number)
    ∧ (yarrowMethod ⟨2, 3, List.replicate 24 0⟩).map (fun r => r.primaryHexagram.number)
        = (yarrowMethod ⟨2, 3, List.replicate 24 0⟩).map (fun r => r.primaryHexagram.number) :=
  methodsDeterministic_c2 ⟨2, 3, List.replicate 24 0⟩ ⟨2, 3, List.replicate 24 0⟩ rfl rfl rfl

/- ═══════════════════  Theorems: yarrow division (C5, C9)  ═══════════════════ -/

/-- C5 (amended): for every draw in [0,1) the left sub-pile lies in
[1, pile-1] (not [1, pile-2]) and the right pile is the remainder. -/
theorem yarrowSplit_amended_c5 (pile : Int) (r : ℚ) (h0 : 0 ≤ r) (h1 : r < 1)
    (hp : 2 ≤ pile) :
    1 ≤ yarrowLeftPile pile r ∧ yarrowLeftPile pile r ≤ pile - 1
    ∧ yarrowRightPile pile r = pile - yarrowLeftPile pile r := by
  unfold yarrowRightPile yarrowLeftPile
  have hc : (2:ℚ) ≤ (pile : ℚ) := by exact_mod_cast hp
  have hp1 : (0:ℚ) < (pile : ℚ) - 1 := by linarith
  refine ⟨?_, ?_, rfl⟩
  · have h := Int.floor_nonneg.mpr (mul_nonneg h0 (le_of_lt hp1))
    omega
  · have hlt : r * ((pile : ℚ) - 1) < (pile : ℚ) - 1 := by
      calc r * ((pile : ℚ) - 1) < 1 * ((pile : ℚ) - 1) :=
            mul_lt_mul_of_pos_right h1 hp1
        _ = (pile : ℚ) - 1 := one_mul _
    have h := Int.floor_lt.mpr (by push_cast; linarith : r * ((pile : ℚ) - 1) < ((pile - 1 : Int) : ℚ))
    omega

/-- Witness for the amended C5 at pile 48 (the first division) and a
concrete draw. -/
theorem yarrowSplit_amended_c5_witness :
    1 ≤ yarrowLeftPile 48 (1 / 2) ∧ yarrowLeftPile 48 (1 / 2) ≤ 48 - 1
    ∧ yarrowRightPile 48 (1 / 2) = 48 - yarrowLeftPile 48 (1 / 2) :=
  yarrowSplit_amended_c5 48 (1 / 2) (by norm_num) (by norm_num) (by norm_num)

/-- C5 counterexample: the draw 4203585014/2^32 lies in [0,1) yet yields
left pile 47 = pile - 1 > pile - 2 on the first division (pile 48). -/
theorem yarrowSplit_counterexample_c5 :
    (0 : ℚ) ≤ 4203585014 / 4294967296 ∧ (4203585014 / 4294967296 : ℚ) < 1
    ∧ yarrowLeftPile 48 (4203585014 / 4294967296) = 47
    ∧ ¬ yarrowLeftPile 48 (4203585014 / 4294967296) ≤ 48 - 2 := by
  have hval : yarrowLeftPile 48 (4203585014 / 4294967296) = 47 := by
    unfold yarrowLeftPile
    rw [show (((48 : Int) : ℚ) - 1) = (47 : ℚ) by norm_num]
    rw [show ⌊(4203585014 / 4294967296 : ℚ) * 47⌋ = 46 from by
      rw [Int.floor_eq_iff]
      norm_num]
    norm_num
  refine ⟨by norm_num, by norm_num, hval, by rw [hval]; decide⟩

/-- C9: for every PRNG and state, the three per-division classifications
sum to a value in {6,7,8,9}; the remap table is defined at that sum (the
defensive default 7 is never taken), and the returned line value is one of
{6,7,8,9}. -/
theorem yarrowSum_c9 : ∀ {S : Type} (next : S → ℚ × S) (s : S),
    ∃ sum : Int,
      (sum = 6 ∨ sum = 7 ∨ sum = 8 ∨ sum = 9)
      ∧ (yarrowValueMap sum).isSome = true
      ∧ (simulateYarrowStalkDivision next s).1 = (yarrowValueMap sum).getD 7
      ∧ ((simulateYarrowStalkDivision next s).1 = 6
          ∨ (simulateYarrowStalkDivision next s).1 = 7
          ∨ (simulateYarrowStalkDivision next s).1 = 8
          ∨ (simulateYarrowStalkDivision next s).1 = 9) := by
  intro S next s
  have hsum : ∀ a b c : Int, yarrowClassSum a b c = 6 ∨ yarrowClassSum a b c = 7
      ∨ yarrowClassSum a b c = 8 ∨ yarrowClassSum a b c = 9 := by
    intro a b c
    unfold yarrowClassSum
    split <;> split <;> split <;> omega
  rcases h1 : next s with ⟨r1, s1⟩
  rcases h2 : next s1 with ⟨r2, s2⟩
  rcases h3 : next s2 with ⟨r3, s3⟩
  simp only [simulateYarrowStalkDivision, h1, h2, h3]
  refine ⟨yarrowClassSum (yarrowDivisionInHand 49 r1)
      (yarrowDivisionInHand (49 - yarrowDivisionInHand 49 r1) r2)
      (yarrowDivisionInHand (49 - yarrowDivisionInHand 49 r1
        - yarrowDivisionInHand (49 - yarrowDivisionInHand 49 r1) r2) r3),
    hsum _ _ _, ?_, rfl, ?_⟩
  · rcases hsum (yarrowDivisionInHand 49 r1)
      (yarrowDivisionInHand (49 - yarrowDivisionInHand 49 r1) r2)
      (yarrowDivisionInHand (49 - yarrowDivisionInHand 49 r1
        - yarrowDivisionInHand (49 - yarrowDivisionInHand 49 r1) r2) r3)
      with h | h | h | h <;> rw [h] <;> rfl
  · rcases hsum (yarrowDivisionInHand 49 r1)
      (yarrowDivisionInHand (49 - yarrowDivisionInHand 49 r1) r2)
      (yarrowDivisionInHand (49 - yarrowDivisionInHand 49 r1
        - yarrowDivisionInHand (49 - yarrowDivisionInHand 49 r1) r2) r3)
      with h | h | h | h <;> rw [h] <;> simp [yarrowValueMap]

/- ═══════════════════  Theorems: interpretation table (C6)  ═══════════════════ -/

theorem length_filter_add_length_filter_not {α : Type} (p : α → Bool) (l : List α) :
    (l.filter p).length + (l.filter (fun a => !(p a))).length = l.length := by
  induction l with
  | nil => rfl
  | cons a l ih =>
      cases h : p a <;> simp [List.filter_cons, h] <;> omega

theorem find?_eq_head?_filter {α : Type} (p : α → Bool) (l : List α) :
    l.find? p = (l.filter p).head? := by
  induction l with
  | nil => rfl
  | cons a l ih =>
      cases h : p a
      · rw [List.find?_cons_of_neg _ (by simp [h]),
          List.filter_cons_of_neg (by simp [h]), ih]
      · rw [List.find?_cons_of_pos _ h, List.filter_cons_of_pos h, List.head?_cons]

theorem changingPositions_eq (l : List LineState) :
    changingPositions l
      = (l.enum.filter (fun p => p.2.isChanging)).map (fun p => p.1 + 1) := by
  have h : ∀ (m : List LineState) (k : Nat),
      ((m.enumFrom k).map (fun p => if p.2.isChanging then p.1 + 1 else 0)).filter
          (fun pos => 0 < pos)
        = ((m.enumFrom k).filter (fun p => p.2.isChanging)).map (fun p => p.1 + 1) := by
    intro m
    induction m with
    | nil => intro k; rfl
    | cons x xs ih =>
        intro k
        rw [List.enumFrom_cons]
        cases hx : x.isChanging <;>
          simp [List.filter_cons, hx, ih (k + 1)]
  unfold changingPositions
  rw [List.enum_eq_enumFrom]
  exact h l 0

theorem changingPositions_sublist (l : List LineState) (hlen : l.length = 6) :
    List.Sublist (changingPositions l) [1, 2, 3, 4, 5, 6] := by
  rw [changingPositions_eq]
  have h1 : List.Sublist ((l.enum.filter (fun p => p.2.isChanging)).map (fun p => p.1 + 1))
      (l.enum.map (fun p => p.1 + 1)) := (List.filter_sublist _).map _
  have h2 : l.enum.map (fun p => (p.1 + 1 : Nat)) = [1, 2, 3, 4, 5, 6] := by
    have h3 : l.enum.map (fun p => (p.1 + 1 : Nat))
        = (l.enum.map Prod.fst).map (· + 1) := by
      rw [List.map_map]; rfl
    rw [h3, List.enum_eq_enumFrom, List.enumFrom_map_fst, hlen]
    rfl
  rw [h2] at h1
  exact h1

theorem filter_contains_of_sublist {L M : List Nat} (hsub : List.Sublist L M) (hM : M.Nodup) :
    M.filter (fun x => L.contains x) = L := by
  induction hsub with
  | slnil => rfl
  | @cons L' M' m hsub ih =>
      have hcons := List.nodup_cons.mp hM
      have hm : m ∉ L' := fun hmem => hcons.1 (hsub.subset hmem)
      rw [List.filter_cons_of_neg (by simp [hm]), ih hcons.2]
  | @cons₂ L' M' m hsub ih =>
      have hcons := List.nodup_cons.mp hM
      rw [List.filter_cons_of_pos (by simp)]
      have hcongr : M'.filter (fun x => (m :: L').contains x)
          = M'.filter (fun x => L'.contains x) := by
        apply List.filter_congr
        intro x hx
        have hne : x ≠ m := fun he => hcons.1 (he ▸ hx)
        simp [hne]
      rw [hcongr, ih hcons.2]

theorem changingPositions_filter_contains (l : List LineState) (hlen : l.length = 6) :
    [1, 2, 3, 4, 5, 6].filter (fun pos => (changingPositions l).contains pos)
      = changingPositions l :=
  filter_contains_of_sublist (changingPositions_sublist l hlen) (by decide)

theorem mem_changingPositions {l : List LineState} {pos : Nat}
    (h : pos ∈ changingPositions l) :
    ∃ i, i < l.length ∧ pos = i + 1
      ∧ ∃ x, l[i]? = some x ∧ x.isChanging = true := by
  rw [changingPositions_eq] at h
  obtain ⟨⟨i, x⟩, hmem, rfl⟩ := List.mem_map.mp h
  obtain ⟨henum, hch⟩ := List.mem_filter.mp hmem
  have hget : l[i]? = some x := List.mk_mem_enum_iff_getElem?.mp henum
  have hlt : i < l.length := by
    by_contra hge
    rw [List.getElem?_eq_none (by omega)] at hget
    exact Option.noConfusion hget
  exact ⟨i, hlt, rfl, x, hget, by simpa using hch⟩

theorem length_filter_add_length_filter_not_pred {α : Type} (p q : α → Bool)
    (hpq : ∀ a, q a = !(p a)) (l : List α) :
    (l.filter p).length + (l.filter q).length = l.length := by
  induction l with
  | nil => rfl
  | cons a l ih =>
      cases h : p a <;> simp [List.filter_cons, h, hpq a] <;> omega

/-- C6: the interpretation rule table.  For every `DivinationResult` whose
`changingLines` derive from its 6 lines, `getReadingInterpretation`
matches the table (counts 0-6); for every other count the fallback is
focus `primary` with no relevant lines. -/
theorem readingInterpretation_c6 :
    (∀ r : DivinationResult, r.lines.length = 6 →
        r.changingLines = changingPositions r.lines →
        ((r.changingLines.length = 0 →
            (getReadingInterpretation r).focus = Focus.primary
            ∧ (getReadingInterpretation r).relevantLines = [])
          ∧ (r.changingLines.length = 1 →
            (getReadingInterpretation r).focus = Focus.primary
            ∧ (getReadingInterpretation r).relevantLines = r.changingLines)
          ∧ (r.changingLines.length = 2 →
            (getReadingInterpretation r).focus = Focus.primary
            ∧ (getReadingInterpretation r).relevantLines = r.changingLines)
          ∧ (r.changingLines.length = 3 →
            (getReadingInterpretation r).focus = Focus.both
            ∧ (getReadingInterpretation r).relevantLines = [])
          ∧ (r.changingLines.length = 4 →
            (getReadingInterpretation r).focus = Focus.transformed
            ∧ (getReadingInterpretation r).relevantLines
                = [1, 2, 3, 4, 5, 6].filter (fun pos => !(r.changingLines.contains pos))
            ∧ (getReadingInterpretation r).relevantLines.length = 2
            ∧ (getReadingInterpretation r).relevantLines.Pairwise (· < ·))
          ∧ (r.changingLines.length = 5 →
            (getReadingInterpretation r).focus = Focus.transformed
            ∧ (getReadingInterpretation r).relevantLines
                = [1, 2, 3, 4, 5, 6].filter (fun pos => !(r.changingLines.contains pos))
            ∧ (getReadingInterpretation r).relevantLines.length = 1)
          ∧ (r.changingLines.length = 6 →
            (getReadingInterpretation r).relevantLines = []
            ∧ ((r.primaryHexagram.number = 1 ∨ r.primaryHexagram.number = 2) →
                (getReadingInterpretation r).focus = Focus.primary)
            ∧ (r.primaryHexagram.number ≠ 1 → r.primaryHexagram.number ≠ 2 →
                (getReadingInterpretation r).focus = Focus.transformed))))
    ∧ (∀ r : DivinationResult, 6 < r.changingLines.length →
        (getReadingInterpretation r).focus = Focus.primary
        ∧ (getReadingInterpretation r).relevantLines = []) := by
  constructor
  · intro r hlen hch
    have hL : [1, 2, 3, 4, 5, 6].filter (fun pos => r.changingLines.contains pos)
        = r.changingLines := by
      rw [hch]; exact changingPositions_filter_contains r.lines hlen
    have hsum := length_filter_add_length_filter_not_pred
      (fun pos => r.changingLines.contains pos)
      (fun pos => !(r.changingLines.contains pos)) (fun a => rfl) [1, 2, 3, 4, 5, 6]
    rw [hL, show ([1, 2, 3, 4, 5, 6] : List Nat).length = 6 from rfl] at hsum
    refine ⟨?_, ?_, ?_, ?_, ?_, ?_, ?_⟩ <;> intro hn
    · simp [getReadingInterpretation, hn]
    · simp [getReadingInterpretation, hn]
    · simp [getReadingInterpretation, hn]
    · simp [getReadingInterpretation, hn]
    · have hstable : (getReadingInterpretation r).relevantLines
          = [1, 2, 3, 4, 5, 6].filter (fun pos => !(r.changingLines.contains pos)) := by
        simp [getReadingInterpretation, hn]
      refine ⟨by simp [getReadingInterpretation, hn], hstable, ?_, ?_⟩
      · rw [hstable]; omega
      · rw [hstable]
        exact List.Pairwise.sublist (List.filter_sublist _) (by decide)
    · have hone : ([1, 2, 3, 4, 5, 6].filter
          (fun pos => !(r.changingLines.contains pos))).length = 1 := by omega
      obtain ⟨x, hx⟩ := List.length_eq_one.mp hone
      have hfind : [1, 2, 3, 4, 5, 6].find? (fun pos => !(r.changingLines.contains pos))
          = some x := by
        rw [find?_eq_head?_filter, hx]; rfl
      refine ⟨by simp [getReadingInterpretation, hn], ?_, ?_⟩
      · simp only [getReadingInterpretation, hn, hfind, hx]
      · simp only [getReadingInterpretation, hn, hfind, hx]
        rfl
    · refine ⟨by simp [getReadingInterpretation, hn], ?_, ?_⟩
      · intro hq
        rcases hq with h1 | h2
        · simp [getReadingInterpretation, hn, h1]
        · simp [getReadingInterpretation, hn, h2]
      · intro h1 h2
        simp [getReadingInterpretation, hn, h1, h2]
  · intro r hn
    obtain ⟨k, hk⟩ : ∃ k, r.changingLines.length = k + 7 :=
      ⟨r.changingLines.length - 7, by omega⟩
    constructor <;> simp [getReadingInterpretation, hk]

/-- Witness for C6: a result with no changing line follows the count-0
row, and a malformed count-7 result falls back to the default row. -/
theorem readingInterpretation_c6_witness :
    ((getReadingInterpretation
        { lines := [createLineState 7, createLineState 7, createLineState 7,
            createLineState 7, createLineState 7, createLineState 7]
          primaryHexagram := ⟨1⟩
          changingLines := []
          transformedHexagram := none
          method := DivinationMethod.image }).focus = Focus.primary
      ∧ (getReadingInterpretation
        { lines := [createLineState 7, createLineState 7, createLineState 7,
            createLineState 7, createLineState 7, createLineState 7]
          primaryHexagram := ⟨1⟩
          changingLines := []
          transformedHexagram := none
          method := DivinationMethod.image }).relevantLines = [])
    ∧ ((getReadingInterpretation
        { lines := []
          primaryHexagram := ⟨1⟩
          changingLines := [1, 1, 1, 1, 1, 1, 1]
          transformedHexagram := none
          method := DivinationMethod.image }).focus = Focus.primary
      ∧ (getReadingInterpretation
        { lines := []
          primaryHexagram := ⟨1⟩
          changingLines := [1, 1, 1, 1, 1, 1, 1]
          transformedHexagram := none
          method := DivinationMethod.image }).relevantLines = []) :=
  ⟨(readingInterpretation_c6.1 _ (by decide) (by decide)).1 (by decide),
   readingInterpretation_c6.2 _ (by decide)⟩

/- ═══════════════════  Theorems: transformed hexagram (C7)  ═══════════════════ -/

theorem getHexagramByLines_eq (lines : List LineState) (u : Bool) :
    getHexagramByLines lines u
      = some ⟨KING_WEN_SEQUENCE (linesToBinary lines u)⟩ := by
  have hb := linesToBinary_lt lines u
  have hm := kingWen_mem _ hb
  unfold getHexagramByLines getHexagram
  have h0 : KING_WEN_SEQUENCE (linesToBinary lines u) ≠ 0 := by omega
  have h1 : ¬ (KING_WEN_SEQUENCE (linesToBinary lines u) < 1
      ∨ 64 < KING_WEN_SEQUENCE (linesToBinary lines u)) := by
    push_neg
    omega
  rw [if_pos h0, if_neg h1]

theorem createLineState_changing_types (v : Nat)
    (h : (createLineState v).isChanging = true) :
    (createLineState v).futureType ≠ (createLineState v).currentType := by
  simp only [createLineState] at h ⊢
  rw [decide_eq_true_eq] at h
  rw [if_pos h]
  by_cases hy : v = 7 ∨ v = 9
  · simp [hy]
  · simp [hy]

theorem buildLines_aux (step : Nat → Nat → Nat × Nat) :
    ∀ (l : List Nat) (acc0 : List LineState) (s : Nat),
      ∃ vs : List Nat,
        vs.length = l.length
        ∧ (l.foldl
            (fun acc i => (acc.1 ++ [createLineState (step i acc.2).1], (step i acc.2).2))
            (acc0, s)).1 = acc0 ++ vs.map createLineState := by
  intro l
  induction l with
  | nil => intro acc0 s; exact ⟨[], rfl, by simp⟩
  | cons i l ih =>
      intro acc0 s
      obtain ⟨vs, hl, hv⟩ := ih (acc0 ++ [createLineState (step i s).1]) (step i s).2
      refine ⟨(step i s).1 :: vs, by simp [hl], ?_⟩
      rw [List.foldl_cons]
      rw [hv]
      simp

theorem buildLines_spec (step : Nat → Nat → Nat × Nat) (seed : Nat) :
    ∃ vs : List Nat, vs.length = 6 ∧ (buildLines step seed).1 = vs.map createLineState := by
  obtain ⟨vs, hl, hv⟩ := buildLines_aux step (List.range 6) [] seed
  exact ⟨vs, by simpa using hl, by simpa using hv⟩

theorem linesToBinary_ne_of_changing (vs : List Nat) (i : Nat) (hi : i < 6)
    (hivs : i < vs.length)
    (hx : ((vs.map createLineState).getD i default).isChanging = true) :
    linesToBinary (vs.map createLineState) false
      ≠ linesToBinary (vs.map createLineState) true := by
  have hget : (vs.map createLineState).getD i default
      = createLineState (vs.getD i 0) := by
    rw [List.getD_eq_getElem?_getD, List.getElem?_map, List.getD_eq_getElem?_getD]
    cases hvi : vs[i]? with
    | none =>
        rw [List.getElem?_eq_none_iff] at hvi
        omega
    | some v => simp
  intro heq
  rw [linesToBinary_eq_binFunF, linesToBinary_eq_binFunF] at heq
  have hFG := congrFun (binFunF_injective _ _ heq) ⟨i, hi⟩
  simp only [decide_eq_decide, lineTypeAt] at hFG
  norm_num at hFG
  have hvi : vs[i]? = some (vs.getD i 0) := by
    rw [List.getD_eq_getElem?_getD, List.getElem?_eq_getElem hivs]
    rfl
  rw [hget] at hx
  rw [hvi] at hFG
  simp only [Option.map_some', Option.getD_some] at hFG
  have hne := createLineState_changing_types (vs.getD i 0) hx
  cases hcur : (createLineState (vs.getD i 0)).currentType <;>
    cases hfut : (createLineState (vs.getD i 0)).futureType <;>
      rw [hcur, hfut] at hne hFG <;>
      first
        | exact hne rfl
        | exact LineType.noConfusion (hFG.mp rfl)
        | exact LineType.noConfusion (hFG.mpr rfl)

theorem buildDivinationResult_eq (lines : List LineState) (m : DivinationMethod) :
    buildDivinationResult lines m
      = some { lines := lines
               primaryHexagram := ⟨KING_WEN_SEQUENCE (linesToBinary lines false)⟩
               changingLines := changingPositions lines
               transformedHexagram :=
                 if 0 < (changingPositions lines).length
                 then some ⟨KING_WEN_SEQUENCE (linesToBinary lines true)⟩ else none
               method := m } := by
  unfold buildDivinationResult
  rw [getHexagramByLines_eq, getHexagramByLines_eq]

theorem buildDiv_core_c7 (vs : List Nat) (m : DivinationMethod) (r : DivinationResult)
    (hlen : vs.length = 6)
    (hbuild : buildDivinationResult (vs.map createLineState) m = some r) :
    (r.transformedHexagram.isSome = true ↔ r.changingLines ≠ [])
    ∧ (∀ t, r.transformedHexagram = some t → t.number ≠ r.primaryHexagram.number) := by
  rw [buildDivinationResult_eq] at hbuild
  have hr := Option.some.inj hbuild
  subst hr
  constructor
  · dsimp only
    by_cases hc : 0 < (changingPositions (vs.map createLineState)).length
    · rw [if_pos hc]
      simp only [Option.isSome_some]
      exact ⟨fun _ => List.length_pos.mp hc, fun _ => trivial⟩
    · rw [if_neg hc]
      simp only [Option.isSome_none]
      exact ⟨fun h => absurd h (by simp), fun hne => absurd (List.length_pos.mpr hne) hc⟩
  · intro t ht
    dsimp only at ht ⊢
    by_cases hc : 0 < (changingPositions (vs.map createLineState)).length
    · rw [if_pos hc] at ht
      have ht' := Option.some.inj ht
      have hne : changingPositions (vs.map createLineState) ≠ [] := List.length_pos.mp hc
      obtain ⟨pos, hpos⟩ := List.exists_mem_of_ne_nil _ hne
      obtain ⟨i, hilen, hposi, x, hxi, hxch⟩ := mem_changingPositions hpos
      have hi6 : i < 6 := by
        rw [List.length_map, hlen] at hilen
        exact hilen
      have hivs : i < vs.length := by omega
      have hgetx : (vs.map createLineState).getD i default = x := by
        rw [List.getD_eq_getElem?_getD, hxi]
        rfl
      have hnb := linesToBinary_ne_of_changing vs i hi6 hivs (by rw [hgetx]; exact hxch)
      intro hcon
      have hKW : KING_WEN_SEQUENCE (linesToBinary (vs.map createLineState) false)
          = KING_WEN_SEQUENCE (linesToBinary (vs.map createLineState) true) := by
        rw [← ht'] at hcon
        exact hcon.symm
      exact hnb (kingWen_inj _ (linesToBinary_lt _ _) _ (linesToBinary_lt _ _) hKW)
    · rw [if_neg hc] at ht
      exact Option.noConfusion ht

/-- C7: every result built by any of the three methods has a transformed
hexagram exactly when it has changing lines, and the transformed number
always differs from the primary number. -/
theorem methodsTransformed_c7 :
    ∀ (img : ImageData) (r : DivinationResult),
      imageMethod img = some r ∨ coinsMethod img = some r ∨ yarrowMethod img = some r →
      (r.transformedHexagram.isSome = true ↔ r.changingLines ≠ [])
      ∧ (∀ t, r.transformedHexagram = some t → t.number ≠ r.primaryHexagram.number) := by
  intro img r h
  rcases h with h | h | h
  · obtain ⟨vs, hl, hv⟩ := buildLines_spec (imageMethodStep img) (hashImageData img)
    simp only [imageMethod] at h
    rw [hv] at h
    exact buildDiv_core_c7 vs _ r hl h
  · obtain ⟨vs, hl, hv⟩ := buildLines_spec (coinsMethodStep img) (hashImageData img)
    simp only [coinsMethod] at h
    rw [hv] at h
    exact buildDiv_core_c7 vs _ r hl h
  · obtain ⟨vs, hl, hv⟩ := buildLines_spec
      (fun _ seed => simulateYarrowStalkDivision mulberry32Next seed) (hashImageData img)
    simp only [yarrowMethod] at h
    rw [hv] at h
    exact buildDiv_core_c7 vs _ r hl h

theorem flatMap_range_zero (l : List Nat) (g : Nat → Nat → Nat) :
    l.flatMap (fun y => (List.range 0).map (g y)) = [] := by
  induction l with
  | nil => rfl
  | cons y l ih => simp [ih]

theorem getRegionBrightness_empty (a b : Nat) :
    getRegionBrightness ⟨0, 0, []⟩ a b = 128 := by
  unfold getRegionBrightness
  dsimp only
  rw [flatMap_range_zero]
  rfl

theorem imageMethodStep_empty (i s : Nat) :
    imageMethodStep ⟨0, 0, []⟩ i s
      = (if (mulberry32Next s).1 < (0.25 : ℚ) then 6 else 8, (mulberry32Next s).2) := by
  simp only [imageMethodStep]
  rw [getRegionBrightness_empty]
  rw [if_neg (by norm_num : ¬ (128 : ℚ) < 128)]

theorem imageMethod_empty_eval :
    imageMethod ⟨0, 0, []⟩
      = some { lines := [createLineState 8, createLineState 6, createLineState 6,
                 createLineState 6, createLineState 8, createLineState 8]
               primaryHexagram := ⟨2⟩
               changingLines := [2, 3, 4]
               transformedHexagram := some ⟨31⟩
               method := DivinationMethod.image } := by
  have h0 : mulberry32Next 0 = ((1144304738 : ℚ) / 4294967296, 1831565813) := rfl
  have h1 : mulberry32Next 1831565813 = ((1416247 : ℚ) / 4294967296, 3663131626) := rfl
  have h2 : mulberry32Next 3663131626 = ((958946056 : ℚ) / 4294967296, 5494697439) := rfl
  have h3 : mulberry32Next 5494697439 = ((627933444 : ℚ) / 4294967296, 7326263252) := rfl
  have h4 : mulberry32Next 7326263252 = ((2007157716 : ℚ) / 4294967296, 9157829065) := rfl
  have h5 : mulberry32Next 9157829065 = ((2340967985 : ℚ) / 4294967296, 10989394878) := rfl
  have c0 : ¬ ((1144304738 : ℚ) / 4294967296 < 0.25) := by norm_num
  have c1 : ((1416247 : ℚ) / 4294967296 < 0.25) := by norm_num
  have c2 : ((958946056 : ℚ) / 4294967296 < 0.25) := by norm_num
  have c3 : ((627933444 : ℚ) / 4294967296 < 0.25) := by norm_num
  have c4 : ¬ ((2007157716 : ℚ) / 4294967296 < 0.25) := by norm_num
  have c5 : ¬ ((2340967985 : ℚ) / 4294967296 < 0.25) := by norm_num
  simp only [imageMethod]
  rw [show hashImageData ⟨0, 0, []⟩ = 0 from rfl]
  simp only [buildLines]
  rw [show List.range 6 = [0, 1, 2, 3, 4, 5] from rfl]
  simp only [List.foldl_cons, List.foldl_nil, imageMethodStep_empty]
  simp only [h0, h1, h2, h3, h4, h5]
  rw [if_neg c0, if_pos c1, if_pos c2, if_pos c3, if_neg c4, if_neg c5]
  decide

/-- Witness for C7: the image method on an empty buffer yields hexagram 2
with changing lines [2,3,4] and transformed hexagram 31 ≠ 2. -/
theorem methodsTransformed_c7_witness :
    imageMethod ⟨0, 0, []⟩
      = some { lines := [createLineState 8, createLineState 6, createLineState 6,
                 createLineState 6, createLineState 8, createLineState 8]
               primaryHexagram := ⟨2⟩
               changingLines := [2, 3, 4]
               transformedHexagram := some ⟨31⟩
               method := DivinationMethod.image }
    ∧ (((some ⟨31⟩ : Option Hexagram).isSome = true ↔ ([2, 3, 4] : List Nat) ≠ [])
        ∧ ∀ t, (some ⟨31⟩ : Option Hexagram) = some t → t.number ≠ (⟨2⟩ : Hexagram).number) :=
  ⟨imageMethod_empty_eval,
   methodsTransformed_c7 ⟨0, 0, []⟩
     { lines := [createLineState 8, createLineState 6, createLineState 6,
         createLineState 6, createLineState 8, createLineState 8]
       primaryHexagram := ⟨2⟩
       changingLines := [2, 3, 4]
       transformedHexagram := some ⟨31⟩
       method := DivinationMethod.image }
     (Or.inl imageMethod_empty_eval)⟩

/- ═══════════════════  Theorems: LZW safety (C4)  ═══════════════════ -/

theorem writePixels_inv (entry : List Nat) :
    ∀ (output : List Nat) (oi P : Nat), output.length = P → oi ≤ P →
      (∀ j, oi ≤ j → output.getD j 0 = 0) →
      (writePixels entry output oi P).1.length = P
      ∧ oi ≤ (writePixels entry output oi P).2
      ∧ (writePixels entry output oi P).2 ≤ P
      ∧ ∀ j, (writePixels entry output oi P).2 ≤ j →
          (writePixels entry output oi P).1.getD j 0 = 0 := by
  induction entry with
  | nil =>
      intro output oi P h1 h2 h3
      exact ⟨h1, Nat.le_refl _, h2, h3⟩
  | cons p rest ih =>
      intro output oi P h1 h2 h3
      by_cases hc : oi < P
      · have hcons : writePixels (p :: rest) output oi P
            = writePixels rest (output.set oi p) (oi + 1) P := by
          unfold writePixels
          rw [List.foldl_cons]
          dsimp only
          rw [if_pos hc]
        rw [hcons]
        have h3' : ∀ j, oi + 1 ≤ j → (output.set oi p).getD j 0 = 0 := by
          intro j hj
          rw [List.getD_eq_getElem?_getD, List.getElem?_set_ne (by omega),
            ← List.getD_eq_getElem?_getD]
          exact h3 j (by omega)
        have := ih (output.set oi p) (oi + 1) P (by rw [List.length_set]; exact h1)
          hc h3'
        exact ⟨this.1, Nat.le_trans (Nat.le_succ oi) this.2.1, this.2.2.1, this.2.2.2⟩
      · have hcons : writePixels (p :: rest) output oi P
            = writePixels rest output oi P := by
          unfold writePixels
          rw [List.foldl_cons]
          dsimp only
          rw [if_neg hc]
        rw [hcons]
        exact ih output oi P h1 h2 h3

theorem lzwStep_shape (data : List Nat) (m P : Nat) (st : LZWState) :
    ((lzwStep data m P st).2.output = st.output
      ∧ (lzwStep data m P st).2.outputIndex = st.outputIndex)
    ∨ ∃ entry,
        (lzwStep data m P st).2.output = (writePixels entry st.output st.outputIndex P).1
        ∧ (lzwStep data m P st).2.outputIndex
            = (writePixels entry st.output st.outputIndex P).2 := by
  unfold lzwStep
  dsimp only
  split
  · split
    · left; exact ⟨rfl, rfl⟩
    · split
      · left; exact ⟨rfl, rfl⟩
      · split
        · left; exact ⟨rfl, rfl⟩
        · rename_i entry _
          right
          refine ⟨entry, ?_, ?_⟩ <;>
            (split <;> first | rfl | (split <;> rfl))
  · left; exact ⟨rfl, rfl⟩

theorem lzwRunState_inv (data : List Nat) (m P : Nat) :
    ∀ (fuel : Nat) (st : LZWState), st.output.length = P → st.outputIndex ≤ P →
      (∀ j, st.outputIndex ≤ j → st.output.getD j 0 = 0) →
      (lzwRunState data m P fuel st).output.length = P
      ∧ (lzwRunState data m P fuel st).outputIndex ≤ P
      ∧ ∀ j, (lzwRunState data m P fuel st).outputIndex ≤ j →
          (lzwRunState data m P fuel st).output.getD j 0 = 0 := by
  intro fuel
  induction fuel with
  | zero => intro st h1 h2 h3; exact ⟨h1, h2, h3⟩
  | succ fuel ih =>
      intro st h1 h2 h3
      have hstinv : (lzwStep data m P st).2.output.length = P
          ∧ (lzwStep data m P st).2.outputIndex ≤ P
          ∧ ∀ j, (lzwStep data m P st).2.outputIndex ≤ j →
              (lzwStep data m P st).2.output.getD j 0 = 0 := by
        rcases lzwStep_shape data m P st with ⟨ho, hi⟩ | ⟨entry, ho, hi⟩
        · rw [ho, hi]; exact ⟨h1, h2, h3⟩
        · rw [ho, hi]
          have := writePixels_inv entry st.output st.outputIndex P h1 h2 h3
          exact ⟨this.1, this.2.2.1, this.2.2.2⟩
      rcases hstep : lzwStep data m P st with ⟨flag, st'⟩
      rw [hstep] at hstinv
      unfold lzwRunState
      rw [hstep]
      cases flag
      · exact hstinv
      · exact ih st' hstinv.1 hstinv.2.1 hstinv.2.2

/-- C4: for every fuel, stream, minimum code size and pixel count, the LZW
decoder's output buffer has length exactly `pixelCount`, the write index
never passes `pixelCount`, positions at or past the final write index stay
zero, and a code that neither indexes the table nor is the next
self-referential code stops the loop at once, returning the output
produced so far. -/
theorem decompressLZW_c4 :
    (∀ (fuel : Nat) (data : List Nat) (m P : Nat),
      (decompressLZW fuel data m P).length = P
      ∧ (lzwRunState data m P fuel (initLZWState m P)).outputIndex ≤ P
      ∧ ∀ j, (lzwRunState data m P fuel (initLZWState m P)).outputIndex ≤ j →
          (decompressLZW fuel data m P).getD j 0 = 0)
    ∧ (∀ (data : List Nat) (m P : Nat) (st : LZWState) (fuel : Nat),
        st.outputIndex < P → st.dataIndex ≤ data.length →
        (readCodeSt data st).1 ≠ 2 ^ m → (readCodeSt data st).1 ≠ 2 ^ m + 1 →
        ¬ (readCodeSt data st).1 < st.nextCode →
        ¬ ((readCodeSt data st).1 = st.nextCode ∧ st.prevCode ≠ -1) →
        lzwRunState data m P (fuel + 1) st = (readCodeSt data st).2
        ∧ (readCodeSt data st).2.output = st.output) := by
  constructor
  · intro fuel data m P
    have hinit : (initLZWState m P).output.length = P
        ∧ (initLZWState m P).outputIndex ≤ P
        ∧ ∀ j, (initLZWState m P).outputIndex ≤ j →
            (initLZWState m P).output.getD j 0 = 0 := by
      refine ⟨List.length_replicate _ _, Nat.zero_le _, ?_⟩
      intro j _
      rw [show (initLZWState m P).output = List.replicate P 0 from rfl]
      rw [List.getD_eq_getElem?_getD, List.getElem?_replicate]
      split <;> rfl
    exact lzwRunState_inv data m P fuel (initLZWState m P) hinit.1 hinit.2.1 hinit.2.2
  · intro data m P st fuel hout hdata hclear hend hlt hsr
    have hstep : lzwStep data m P st = (false, (readCodeSt data st).2) := by
      unfold lzwStep
      dsimp only
      rw [if_pos ⟨hout, hdata⟩, if_neg hclear, if_neg hend]
      rw [show (readCodeSt data st).2.nextCode = st.nextCode from rfl,
        show (readCodeSt data st).2.prevCode = st.prevCode from rfl]
      rw [if_neg hlt, if_neg hsr]
    constructor
    · unfold lzwRunState
      rw [hstep]
    · rfl

/- ═══════════════════  Theorems: deinterlace (C8)  ═══════════════════ -/

/-- `writeSeg` on an empty segment is the identity. -/
theorem writeSeg_nil (res : List Nat) (pos : Nat) : writeSeg res pos [] = res := rfl

/-- Unfolding equation of `writeSeg` on a cons segment. -/
theorem writeSeg_cons (res : List Nat) (pos a : Nat) (l : List Nat) :
    writeSeg res pos (a :: l) = writeSeg (res.set pos a) (pos + 1) l := rfl

/-- `writeSeg` preserves the buffer length. -/
theorem writeSeg_length (seg : List Nat) :
    ∀ (res : List Nat) (pos : Nat), (writeSeg res pos seg).length = res.length := by
  induction seg with
  | nil => intro res pos; rfl
  | cons a l ih =>
      intro res pos
      rw [writeSeg_cons, ih, List.length_set]

/-- In-bounds `writeSeg` splices the segment into the buffer. -/
theorem writeSeg_splice (seg : List Nat) :
    ∀ (res : List Nat) (pos : Nat), pos + seg.length ≤ res.length →
      writeSeg res pos seg = res.take pos ++ seg ++ res.drop (pos + seg.length) := by
  induction seg with
  | nil =>
      intro res pos h
      rw [writeSeg_nil, List.append_nil, List.length_nil, Nat.add_zero, List.take_append_drop]
  | cons a l ih =>
      intro res pos h
      have hlen : pos + l.length + 1 ≤ res.length := by
        simp only [List.length_cons] at h; omega
      have hpos : pos < res.length := by omega
      have hsplit : res.set pos a = res.take pos ++ a :: res.drop (pos + 1) :=
        List.set_eq_take_cons_drop a hpos
      have hlt : (res.take pos).length = pos := by
        rw [List.length_take]; omega
      have htake : (res.set pos a).take (pos + 1) = res.take pos ++ [a] := by
        rw [hsplit, List.take_append_eq_append_take,
          List.take_of_length_le (by rw [hlt]; omega), hlt, Nat.add_sub_cancel_left,
          show (1 : Nat) = 0 + 1 from rfl, List.take_succ_cons, List.take_zero]
      rw [writeSeg_cons, ih (res.set pos a) (pos + 1) (by rw [List.length_set]; omega),
        htake, List.drop_set_of_lt a res (show pos < pos + 1 + l.length by omega)]
      simp only [List.length_cons]
      rw [show pos + (l.length + 1) = pos + 1 + l.length from by omega]
      simp [List.append_assoc]

/-- The row just written by `writeSeg` reads back as the written segment. -/
theorem writeSeg_row_self (res seg : List Nat) (pos : Nat)
    (hlen : pos + seg.length ≤ res.length) :
    ((writeSeg res pos seg).drop pos).take seg.length = seg := by
  rw [writeSeg_splice seg res pos hlen, List.append_assoc,
    List.drop_left' (by rw [List.length_take]; omega), List.take_left]

/-- Buffer intervals disjoint from the written segment are untouched by
`writeSeg`. -/
theorem writeSeg_row_other (res seg : List Nat) (pos q n : Nat)
    (hlen : pos + seg.length ≤ res.length)
    (hsep : q + n ≤ pos ∨ pos + seg.length ≤ q) :
    ((writeSeg res pos seg).drop q).take n = (res.drop q).take n := by
  rw [writeSeg_splice seg res pos hlen, List.append_assoc]
  rcases hsep with hle | hge
  · rw [List.drop_append_eq_append_drop,
      show q - (res.take pos).length = 0 from by rw [List.length_take]; omega,
      List.drop_zero, List.take_append_eq_append_take,
      show n - ((res.take pos).drop q).length = 0 from by
        rw [List.length_drop, List.length_take]; omega,
      List.take_zero, List.append_nil, List.drop_take, List.take_take,
      Nat.min_eq_left (show n ≤ pos - q from by omega)]
  · have hple : pos ≤ res.length := by omega
    rw [List.drop_append_eq_append_drop, List.length_take, Nat.min_eq_left hple,
      List.drop_eq_nil_of_le (by rw [List.length_take]; omega), List.nil_append,
      List.drop_append_eq_append_drop,
      List.drop_eq_nil_of_le (show seg.length ≤ q - pos from by omega), List.nil_append,
      List.drop_drop,
      show pos + seg.length + (q - pos - seg.length) = q from by omega]

/-- Unfolding equation of the deinterlace row loop on an empty row list. -/
theorem deinterlaceLoop_nil (pixels : List Nat) (w : Nat) (res : List Nat) (src : Nat) :
    deinterlaceLoop pixels w res src [] = res := rfl

/-- Unfolding equation of the deinterlace row loop on a cons row list. -/
theorem deinterlaceLoop_cons (pixels : List Nat) (w : Nat) (res : List Nat)
    (src y : Nat) (ys : List Nat) :
    deinterlaceLoop pixels w res src (y :: ys)
      = deinterlaceLoop pixels w (writeSeg res (y * w) ((pixels.drop src).take w))
          (src + w) ys := rfl

/-- Invariant of the deinterlace row loop: length is preserved, the j-th
listed row receives the j-th consumed source row, and unlisted rows are
untouched. -/
theorem deinterlaceLoop_spec (pixels : List Nat) (w : Nat) :
    ∀ (p : List Nat), p.Nodup → ∀ (res : List Nat) (src : Nat),
      (∀ y ∈ p, (y + 1) * w ≤ res.length) →
      src + p.length * w ≤ pixels.length →
      (deinterlaceLoop pixels w res src p).length = res.length
      ∧ (∀ j, j < p.length →
          ((deinterlaceLoop pixels w res src p).drop (p.getD j 0 * w)).take w
            = (pixels.drop (src + j * w)).take w)
      ∧ (∀ y, y ∉ p → (y + 1) * w ≤ res.length →
          ((deinterlaceLoop pixels w res src p).drop (y * w)).take w
            = (res.drop (y * w)).take w) := by
  intro p
  induction p with
  | nil =>
      intro _ res src _ _
      refine ⟨rfl, ?_, ?_⟩
      · intro j hj
        exact absurd hj (by simp)
      · intro y _ _
        rfl
  | cons y0 ys ih =>
      intro hnd res src hbound hsrc
      have hnd' := List.nodup_cons.mp hnd
      have hsrc' : src + w ≤ pixels.length ∧ (src + w) + ys.length * w ≤ pixels.length := by
        simp only [List.length_cons, Nat.succ_mul] at hsrc
        constructor <;> omega
      have hsegl : ((pixels.drop src).take w).length = w := by
        rw [List.length_take, List.length_drop]
        omega
      have hb0 : (y0 + 1) * w ≤ res.length := hbound y0 (List.mem_cons_self y0 ys)
      have hwl : (writeSeg res (y0 * w) ((pixels.drop src).take w)).length = res.length :=
        writeSeg_length _ res (y0 * w)
      have hbound' : ∀ y ∈ ys,
          (y + 1) * w ≤ (writeSeg res (y0 * w) ((pixels.drop src).take w)).length := by
        intro y hy
        rw [hwl]
        exact hbound y (List.mem_cons_of_mem y0 hy)
      have IH := ih hnd'.2 (writeSeg res (y0 * w) ((pixels.drop src).take w)) (src + w)
        hbound' hsrc'.2
      refine ⟨?_, ?_, ?_⟩
      · rw [deinterlaceLoop_cons, IH.1, hwl]
      · intro j hj
        cases j with
        | zero =>
            rw [deinterlaceLoop_cons, List.getD_cons_zero]
            rw [IH.2.2 y0 hnd'.1 (by rw [hwl]; exact hb0)]
            have hself := writeSeg_row_self res ((pixels.drop src).take w) (y0 * w)
              (by rw [hsegl, ← Nat.succ_mul]; exact hb0)
            rw [hsegl] at hself
            rw [hself, Nat.zero_mul, Nat.add_zero]
        | succ j' =>
            rw [deinterlaceLoop_cons, List.getD_cons_succ]
            have hj' : j' < ys.length := by
              simp only [List.length_cons] at hj; omega
            rw [IH.2.1 j' hj',
              show src + w + j' * w = src + (j' + 1) * w from by rw [Nat.succ_mul]; omega]
      · intro y hy hyb
        have hyne : y ≠ y0 ∧ y ∉ ys := by
          simp only [List.mem_cons, not_or] at hy; exact hy
        rw [deinterlaceLoop_cons, IH.2.2 y hyne.2 (by rw [hwl]; exact hyb)]
        have hsep : y * w + w ≤ y0 * w ∨ y0 * w + w ≤ y * w := by
          rcases Nat.lt_or_ge y y0 with hlt | hge
          · left
            have h1 : (y + 1) * w ≤ y0 * w := Nat.mul_le_mul (by omega) (Nat.le_refl w)
            rw [Nat.succ_mul] at h1
            exact h1
          · right
            have h1 : (y0 + 1) * w ≤ y * w :=
              Nat.mul_le_mul (by omega : y0 + 1 ≤ y) (Nat.le_refl w)
            rw [Nat.succ_mul] at h1
            exact h1
        exact writeSeg_row_other res ((pixels.drop src).take w) (y0 * w) (y * w) w
          (by rw [hsegl, ← Nat.succ_mul]; exact hb0)
          (by rw [hsegl]; exact hsep)

/-- A list of length `w * h` is the concatenation of its `h` rows of
width `w`. -/
theorem flatten_rows (w : Nat) :
    ∀ (h : Nat) (L : List Nat), L.length = w * h →
      ((List.range h).map (fun y => (L.drop (y * w)).take w)).flatten = L := by
  intro h
  induction h with
  | zero =>
      intro L hL
      have hnil : L = [] := List.eq_nil_of_length_eq_zero (by rw [hL, Nat.mul_zero])
      simp [hnil]
  | succ h ih =>
      intro L hL
      rw [List.range_succ_eq_map, List.map_cons, List.map_map, List.flatten_cons]
      have hmap : (List.range h).map ((fun y => (L.drop (y * w)).take w) ∘ Nat.succ)
          = (List.range h).map (fun y => ((L.drop w).drop (y * w)).take w) := by
        apply List.map_congr_left
        intro y _
        show (L.drop ((y + 1) * w)).take w = ((L.drop w).drop (y * w)).take w
        rw [List.drop_drop, show w + y * w = (y + 1) * w from by rw [Nat.succ_mul]; omega]
      rw [hmap, ih (L.drop w) (by rw [List.length_drop, hL, Nat.mul_succ]; omega),
        Nat.zero_mul, List.drop_zero, List.take_append_drop]

/-- Membership in one interlace pass: exactly the rows
`start, start + step, ...` below the height. -/
theorem mem_rowsFrom (step : Nat) (hstep : 0 < step) :
    ∀ (n s h y : Nat), h - s ≤ n →
      (y ∈ rowsFrom step s h ↔ ∃ k, y = s + step * k ∧ y < h) := by
  intro n
  induction n with
  | zero =>
      intro s h y hn
      rw [rowsFrom, dif_neg (by omega : ¬(s < h ∧ 0 < step))]
      simp only [List.not_mem_nil, false_iff]
      rintro ⟨k, hk, hlt⟩
      omega
  | succ n ihn =>
      intro s h y hn
      by_cases hsh : s < h
      · rw [rowsFrom, dif_pos ⟨hsh, hstep⟩, List.mem_cons, ihn (s + step) h y (by omega)]
        constructor
        · rintro (rfl | ⟨k, hk, hlt⟩)
          · exact ⟨0, by rw [Nat.mul_zero]; omega, hsh⟩
          · exact ⟨k + 1, by rw [Nat.mul_succ]; omega, hlt⟩
        · rintro ⟨k, hk, hlt⟩
          cases k with
          | zero =>
              left
              rw [Nat.mul_zero] at hk
              omega
          | succ k =>
              right
              exact ⟨k, by rw [Nat.mul_succ] at hk; omega, hlt⟩
      · rw [rowsFrom, dif_neg (by omega : ¬(s < h ∧ 0 < step))]
        simp only [List.not_mem_nil, false_iff]
        rintro ⟨k, hk, hlt⟩
        omega

/-- Closed form of `mem_rowsFrom`. -/
theorem mem_rowsFrom_iff (step s h y : Nat) (hstep : 0 < step) :
    y ∈ rowsFrom step s h ↔ ∃ k, y = s + step * k ∧ y < h :=
  mem_rowsFrom step hstep (h - s) s h y (Nat.le_refl _)

/-- Each interlace pass lists distinct rows. -/
theorem nodup_rowsFrom (step : Nat) (hstep : 0 < step) :
    ∀ (n s h : Nat), h - s ≤ n → (rowsFrom step s h).Nodup := by
  intro n
  induction n with
  | zero =>
      intro s h hn
      rw [rowsFrom, dif_neg (by omega : ¬(s < h ∧ 0 < step))]
      exact List.nodup_nil
  | succ n ihn =>
      intro s h hn
      by_cases hsh : s < h
      · rw [rowsFrom, dif_pos ⟨hsh, hstep⟩, List.nodup_cons]
        refine ⟨?_, ihn (s + step) h (by omega)⟩
        intro hmem
        rcases (mem_rowsFrom_iff step (s + step) h s hstep).mp hmem with ⟨k, hk, _⟩
        omega
      · rw [rowsFrom, dif_neg (by omega : ¬(s < h ∧ 0 < step))]
        exact List.nodup_nil

/-- The four interlace passes list pairwise-distinct rows. -/
theorem nodup_passRows (h : Nat) : (passRows h).Nodup := by
  have n80 := nodup_rowsFrom 8 (by omega) h 0 h (by omega)
  have n84 := nodup_rowsFrom 8 (by omega) h 4 h (by omega)
  have n42 := nodup_rowsFrom 4 (by omega) h 2 h (by omega)
  have n21 := nodup_rowsFrom 2 (by omega) h 1 h (by omega)
  have m80 : ∀ a ∈ rowsFrom 8 0 h, ∃ k, a = 0 + 8 * k :=
    fun a ha => by
      rcases (mem_rowsFrom_iff 8 0 h a (by omega)).mp ha with ⟨k, hk, _⟩
      exact ⟨k, hk⟩
  have m84 : ∀ a ∈ rowsFrom 8 4 h, ∃ k, a = 4 + 8 * k :=
    fun a ha => by
      rcases (mem_rowsFrom_iff 8 4 h a (by omega)).mp ha with ⟨k, hk, _⟩
      exact ⟨k, hk⟩
  have m42 : ∀ a ∈ rowsFrom 4 2 h, ∃ k, a = 2 + 4 * k :=
    fun a ha => by
      rcases (mem_rowsFrom_iff 4 2 h a (by omega)).mp ha with ⟨k, hk, _⟩
      exact ⟨k, hk⟩
  have m21 : ∀ a ∈ rowsFrom 2 1 h, ∃ k, a = 1 + 2 * k :=
    fun a ha => by
      rcases (mem_rowsFrom_iff 2 1 h a (by omega)).mp ha with ⟨k, hk, _⟩
      exact ⟨k, hk⟩
  unfold passRows
  refine List.Nodup.append (List.Nodup.append (List.Nodup.append n80 n84 ?_) n42 ?_) n21 ?_
  · intro a ha hb
    rcases m80 a ha with ⟨k, hk⟩
    rcases m84 a hb with ⟨j, hj⟩
    omega
  · intro a ha hb
    rcases List.mem_append.mp ha with h1 | h1
    · rcases m80 a h1 with ⟨k, hk⟩
      rcases m42 a hb with ⟨j, hj⟩
      omega
    · rcases m84 a h1 with ⟨k, hk⟩
      rcases m42 a hb with ⟨j, hj⟩
      omega
  · intro a ha hb
    rcases m21 a hb with ⟨j, hj⟩
    rcases List.mem_append.mp ha with h1 | h1
    · rcases List.mem_append.mp h1 with h2 | h2
      · rcases m80 a h2 with ⟨k, hk⟩
        omega
      · rcases m84 a h2 with ⟨k, hk⟩
        omega
    · rcases m42 a h1 with ⟨k, hk⟩
      omega

/-- The interlace passes cover exactly the rows below the height. -/
theorem mem_passRows (h y : Nat) : y ∈ passRows h ↔ y < h := by
  unfold passRows
  simp only [List.mem_append]
  constructor
  · intro hm
    rcases hm with ((hm | hm) | hm) | hm <;>
      · rcases (mem_rowsFrom_iff _ _ _ _ (by omega)).mp hm with ⟨k, hk, hlt⟩
        exact hlt
  · intro hy
    by_cases h2 : y % 2 = 1
    · right
      exact (mem_rowsFrom_iff 2 1 h y (by omega)).mpr ⟨y / 2, by omega, hy⟩
    · by_cases h4 : y % 4 = 2
      · left; right
        exact (mem_rowsFrom_iff 4 2 h y (by omega)).mpr ⟨y / 4, by omega, hy⟩
      · by_cases h8 : y % 8 = 4
        · left; left; right
          exact (mem_rowsFrom_iff 8 4 h y (by omega)).mpr ⟨y / 8, by omega, hy⟩
        · left; left; left
          exact (mem_rowsFrom_iff 8 0 h y (by omega)).mpr ⟨y / 8, by omega, hy⟩

/-- The interlace pass row order is a permutation of the natural row
order. -/
theorem passRows_perm_range (h : Nat) : List.Perm (passRows h) (List.range h) :=
  (List.perm_ext_iff_of_nodup (nodup_passRows h) (List.nodup_range h)).mpr
    (fun y => by rw [mem_passRows, List.mem_range])

/-- The interlace pass order lists exactly `height` rows. -/
theorem passRows_length (h : Nat) : (passRows h).length = h :=
  (passRows_perm_range h).length_eq.trans (List.length_range h)

/-- C8: for every width, height and source buffer of length
`width * height`, `deinterlace` is a pure permutation: the pass order
(starting rows 0, 4, 2, 1 with strides 8, 8, 4, 2) lists every row below
the height exactly once, the output keeps the source's length, the j-th
consumed source row of `width` bytes lands at its true vertical position,
and the output is a permutation of the source bytes. -/
theorem deinterlace_c8 (pixels : List Nat) (w h : Nat)
    (hlen : pixels.length = w * h) :
    List.Perm (passRows h) (List.range h)
    ∧ (deinterlace pixels w h).length = pixels.length
    ∧ (∀ j, j < h →
        ((deinterlace pixels w h).drop ((passRows h).getD j 0 * w)).take w
          = (pixels.drop (j * w)).take w)
    ∧ List.Perm (deinterlace pixels w h) pixels := by
  have hperm := passRows_perm_range h
  have hplen : (passRows h).length = h := passRows_length h
  have hbounds : ∀ y ∈ passRows h, (y + 1) * w ≤ (List.replicate pixels.length 0).length := by
    intro y hy
    rw [List.length_replicate, hlen]
    have hyh : y < h := (mem_passRows h y).mp hy
    calc (y + 1) * w ≤ h * w := Nat.mul_le_mul (by omega) (Nat.le_refl w)
      _ = w * h := Nat.mul_comm h w
  have hsrc : 0 + (passRows h).length * w ≤ pixels.length := by
    rw [hplen, hlen, Nat.mul_comm w h]
    omega
  have hspec := deinterlaceLoop_spec pixels w (passRows h) (nodup_passRows h)
    (List.replicate pixels.length 0) 0 hbounds hsrc
  have hlen1 : (deinterlace pixels w h).length = pixels.length := by
    unfold deinterlace
    rw [hspec.1, List.length_replicate]
  have hrow : ∀ j, j < h →
      ((deinterlace pixels w h).drop ((passRows h).getD j 0 * w)).take w
        = (pixels.drop (j * w)).take w := by
    intro j hj
    have hj' := hspec.2.1 j (by rw [hplen]; exact hj)
    rw [Nat.zero_add] at hj'
    exact hj'
  have hWH : (deinterlace pixels w h).length = w * h := hlen1.trans hlen
  have hout := flatten_rows w h (deinterlace pixels w h) hWH
  have hpix := flatten_rows w h pixels hlen
  have hmapeq : (passRows h).map (fun y => ((deinterlace pixels w h).drop (y * w)).take w)
      = (List.range h).map (fun y => (pixels.drop (y * w)).take w) := by
    apply List.ext_getElem
    · rw [List.length_map, List.length_map, hplen, List.length_range]
    · intro i h1 h2
      simp only [List.getElem_map, List.getElem_range]
      have hi : i < h := by rw [List.length_map, hplen] at h1; exact h1
      have hgd : (passRows h).getD i 0 = (passRows h)[i] := by
        rw [List.getD_eq_getElem?_getD, List.getElem?_eq_getElem (by rw [hplen]; exact hi)]
        rfl
      rw [← hgd]
      exact hrow i hi
  have hpermflat : List.Perm
      (((passRows h).map (fun y => ((deinterlace pixels w h).drop (y * w)).take w)).flatten)
      (((List.range h).map (fun y => ((deinterlace pixels w h).drop (y * w)).take w)).flatten) :=
    (hperm.map _).flatten
  rw [hout, hmapeq, hpix] at hpermflat
  exact ⟨hperm, hlen1, hrow, hpermflat.symm⟩

theorem deinterlace_c8_witness :
    List.Perm (passRows 2) (List.range 2)
    ∧ (deinterlace [10, 11, 12, 13] 2 2).length = ([10, 11, 12, 13] : List Nat).length
    ∧ (∀ j, j < 2 →
        ((deinterlace [10, 11, 12, 13] 2 2).drop ((passRows 2).getD j 0 * 2)).take 2
          = (([10, 11, 12, 13] : List Nat).drop (j * 2)).take 2)
    ∧ List.Perm (deinterlace [10, 11, 12, 13] 2 2) [10, 11, 12, 13] :=
  deinterlace_c8 [10, 11, 12, 13] 2 2 rfl

/- ═══════════════════  Theorems: isAnimatedGif (C10)  ═══════════════════ -/

/-- The image-descriptor counting walk never decreases the running count. -/
theorem countImagesLoop_ge (bytes : List Nat) :
    ∀ (n offset c : Nat), bytes.length - offset ≤ n → c ≤ countImagesLoop bytes offset c := by
  intro n
  induction n with
  | zero =>
      intro offset c hn
      rw [countImagesLoop, dif_neg (by omega : ¬ offset < bytes.length)]
  | succ n ihn =>
      intro offset c hn
      by_cases hofs : offset < bytes.length
      · rw [countImagesLoop, dif_pos hofs]
        simp only []
        by_cases h33 : bytes.getD offset 0 = 0x21
        · rw [if_pos h33]
          cases hsk : skipSubBlocks bytes (offset + 1 + 1) with
          | mk o2 ho2 =>
              exact ihn (o2 + 1) c (by omega)
        · by_cases h2C : bytes.getD offset 0 = 0x2C
          · rw [if_neg h33, if_pos h2C]
            cases hsk : skipSubBlocks bytes
                ((if bytes.getD (offset + 1 + 8) 0 &&& 0x80 ≠ 0
                  then offset + 1 + 9 + (1 <<< ((bytes.getD (offset + 1 + 8) 0 &&& 0x07) + 1)) * 3
                  else offset + 1 + 9) + 1) with
            | mk o5 ho5 =>
                have h9 : offset + 1 + 9 ≤ o5 := by
                  split at ho5 <;> omega
                exact Nat.le_trans (Nat.le_succ c) (ihn (o5 + 1) (c + 1) (by omega))
          · rw [if_neg h33, if_neg h2C]
            by_cases hend : bytes.getD offset 0 = 0x3B ∨ bytes.getD offset 0 = 0x00
            · rw [if_pos hend]
            · rw [if_neg hend]
              exact ihn (offset + 1) c (by omega)
      · rw [countImagesLoop, dif_neg hofs]

/-- The short-circuiting animation test agrees with the full
image-descriptor count. -/
theorem isAnimatedLoop_eq_count (bytes : List Nat) :
    ∀ (n offset c : Nat), bytes.length - offset ≤ n →
      isAnimatedLoop bytes offset c = decide (1 < countImagesLoop bytes offset c) := by
  intro n
  induction n with
  | zero =>
      intro offset c hn
      rw [isAnimatedLoop, countImagesLoop, dif_neg (by omega : ¬ offset < bytes.length),
        dif_neg (by omega : ¬ offset < bytes.length)]
  | succ n ihn =>
      intro offset c hn
      by_cases hofs : offset < bytes.length
      · rw [isAnimatedLoop, countImagesLoop, dif_pos hofs, dif_pos hofs]
        simp only []
        by_cases h33 : bytes.getD offset 0 = 0x21
        · rw [if_pos h33, if_pos h33]
          cases hsk : skipSubBlocks bytes (offset + 1 + 1) with
          | mk o2 ho2 =>
              exact ihn (o2 + 1) c (by omega)
        · by_cases h2C : bytes.getD offset 0 = 0x2C
          · rw [if_neg h33, if_pos h2C, if_neg h33, if_pos h2C]
            cases hsk : skipSubBlocks bytes
                ((if bytes.getD (offset + 1 + 8) 0 &&& 0x80 ≠ 0
                  then offset + 1 + 9 + (1 <<< ((bytes.getD (offset + 1 + 8) 0 &&& 0x07) + 1)) * 3
                  else offset + 1 + 9) + 1) with
            | mk o5 ho5 =>
                have h9 : offset + 1 + 9 ≤ o5 := by
                  split at ho5 <;> omega
                by_cases hc : 1 < c + 1
                · rw [if_pos hc]
                  have hge : c + 1 ≤ countImagesLoop bytes (o5 + 1) (c + 1) :=
                    countImagesLoop_ge bytes (bytes.length - (o5 + 1)) (o5 + 1) (c + 1)
                      (Nat.le_refl _)
                  exact (decide_eq_true (Nat.lt_of_lt_of_le (by omega) hge)).symm
                · rw [if_neg hc]
                  exact ihn (o5 + 1) (c + 1) (by omega)
          · rw [if_neg h33, if_neg h2C, if_neg h33, if_neg h2C]
            by_cases hend : bytes.getD offset 0 = 0x3B ∨ bytes.getD offset 0 = 0x00
            · rw [if_pos hend, if_pos hend]
            · rw [if_neg hend, if_neg hend]
              exact ihn (offset + 1) c (by omega)
      · rw [isAnimatedLoop, countImagesLoop, dif_neg hofs, dif_neg hofs]

/-- Fuel-free form of `isAnimatedLoop_eq_count`. -/
theorem isAnimatedLoop_eq (bytes : List Nat) (offset c : Nat) :
    isAnimatedLoop bytes offset c = decide (1 < countImagesLoop bytes offset c) :=
  isAnimatedLoop_eq_count bytes (bytes.length - offset) offset c (Nat.le_refl _)

/-- C10: `isAnimatedGif` is total by construction (a well-founded walk with
every skip loop bounds-checked) and returns `true` exactly when the
signature check passes and the walk meets a second image-descriptor byte
`0x2C` at block position. -/
theorem isAnimatedGif_c10 (bytes : List Nat) :
    isAnimatedGif bytes
      = (gifSignatureOk bytes && decide (1 < countImageDescriptors bytes)) := by
  unfold isAnimatedGif countImageDescriptors
  by_cases hsig : gifSignatureOk bytes = true
  · rw [if_pos hsig, if_pos hsig, hsig, Bool.true_and]
    simp only []
    exact isAnimatedLoop_eq bytes _ 0
  · rw [if_neg hsig, if_neg hsig]
    rw [Bool.not_eq_true] at hsig
    rw [hsig, Bool.false_and]

/- ═══════════════════  Theorems: parseGif divergence (C3)  ═══════════════════ -/

/-- A state the block walk steps to itself is never left: the runner
reports "still looping" for every fuel. -/
theorem parseGifRun_none_of_fix (bytes : List Nat) (s : PGState)
    (hfix : parseGifStep bytes s = Sum.inl s) :
    ∀ fuel, parseGifRun bytes fuel s = none := by
  intro fuel
  induction fuel with
  | zero => rfl
  | succ fuel ih =>
      show (match parseGifStep bytes s with
        | Sum.inl s' => parseGifRun bytes fuel s'
        | Sum.inr frames => some frames) = none
      rw [hfix]
      exact ih

/-- C3: counterexample to the termination half of the claim.  The buffer
`badBytesC3` passes the signature check (so the claim asserts `parseGif`
terminates on it, keeping the frames parsed before the anomaly), yet the
block walk never finishes for any amount of fuel: the unknown-extension
sub-block skip loop of gifParser.ts lines 71-74 has no bounds check, the
0xFF size byte jumps the offset past the buffer, the next read yields
`undefined`, `offset += bytes[offset] + 1` turns the offset into `NaN`,
and `bytes[NaN] !== 0` stays true forever. -/
theorem parseGif_diverges_c3 :
    gifSignatureOk badBytesC3 = true
    ∧ ∀ fuel : Nat, parseGifBlocks fuel badBytesC3 = Except.ok none := by
  have hfix : parseGifStep badBytesC3
      { offset := none, mode := PGMode.skipExt,
        ctx := { currentDelay := 100, transparentIndex := some (-1),
                 disposalMethod := 0, frames := [] } }
      = Sum.inl { offset := none, mode := PGMode.skipExt,
                  ctx := { currentDelay := 100, transparentIndex := some (-1),
                           disposalMethod := 0, frames := [] } } := rfl
  have hnone := parseGifRun_none_of_fix badBytesC3 _ hfix
  refine ⟨rfl, ?_⟩
  intro fuel
  unfold parseGifBlocks
  rw [if_pos (show gifSignatureOk badBytesC3 = true from rfl)]
  match fuel with
  | 0 => rfl
  | 1 => rfl
  | 2 => rfl
  | (n + 3) =>
      show Except.ok (parseGifRun badBytesC3 (n + 3) (parseGifInitState badBytesC3))
        = Except.ok none
      rw [show parseGifRun badBytesC3 (n + 3) (parseGifInitState badBytesC3)
          = parseGifRun badBytesC3 n
              { offset := none, mode := PGMode.skipExt,
                ctx := { currentDelay := 100, transparentIndex := some (-1),
                         disposalMethod := 0, frames := [] } } from rfl,
        hnone n]
